import Mathlib

/-!
# Verification of the book-HTML extraction pipeline

A shallow embedding of the text-cleaning pipeline of this repository
(`kdpsimplescraper.py` and `kdp1.py`).  Python strings are modelled as
`List Char` (a sequence of Unicode code points); bytes as `List Nat`.
Each definition mirrors one Python function of the source; regular
expressions are unfolded into explicit recursive matchers over the
character list.
-/

namespace Books

/-- Python strings, modelled as lists of Unicode scalar values. -/
abbrev Str := List Char

/-- The set of characters stripped by Python's `str.strip()` /
matched by `\s` in a `str` regular expression (`Py_UNICODE_ISSPACE`). -/
def isPyWs (c : Char) : Bool :=
  decide (c.toNat ∈ ([0x09, 0x0A, 0x0B, 0x0C, 0x0D, 0x1C, 0x1D, 0x1E, 0x1F, 0x20,
    0x85, 0xA0, 0x1680] : List Nat)) ||
  decide (0x2000 ≤ c.toNat ∧ c.toNat ≤ 0x200A) ||
  decide (c.toNat ∈ ([0x2028, 0x2029, 0x202F, 0x205F, 0x3000] : List Nat))

/-- `str.lstrip()` with no argument. -/
def pyLStrip (s : Str) : Str := s.dropWhile isPyWs

/-- `str.rstrip()` with no argument. -/
def pyRStrip (s : Str) : Str := (s.reverse.dropWhile isPyWs).reverse

/-- `str.strip()` with no argument. -/
def pyStrip (s : Str) : Str := pyRStrip (pyLStrip s)

/-- Space or tab, the strip set of `strip_line` (`s.strip(" \t")`). -/
def isSpTab (c : Char) : Bool := c = ' ' || c = '\t'

/-- `s.strip(" \t")` — the `strip_line` helper of `kdpsimplescraper.py`. -/
def stripLine (s : Str) : Str := ((s.dropWhile isSpTab).reverse.dropWhile isSpTab).reverse

/-- `s.split("\n")` (Python semantics: `"".split("\n") == [""]`). -/
def splitNl : Str → List Str
  | [] => [[]]
  | c :: rest =>
    if c = '\n' then [] :: splitNl rest
    else
      match splitNl rest with
      | l :: ls => (c :: l) :: ls
      | [] => [[c]]

/-- `"\n".join(ls)`. -/
def joinNl (ls : List Str) : Str := List.intercalate ['\n'] ls

/-- Replace every NBSP (U+00A0) by a space: `s.replace(" ", " ")`. -/
def replaceNbsp (s : Str) : Str := s.map (fun c => if c = '\u00A0' then ' ' else c)

/-- `s.replace("\r\n", "\n").replace("\r", "\n")`: a CRLF pair becomes
one newline, a lone CR becomes a newline. -/
def replaceCrNl : Str → Str
  | [] => []
  | c :: rest =>
    if c = '\r' then
      match rest with
      | [] => ['\n']
      | d :: rest2 =>
        if d = '\n' then '\n' :: replaceCrNl rest2
        else '\n' :: replaceCrNl (d :: rest2)
    else c :: replaceCrNl rest

/-- `s.replace("\r\n", " ").replace("\r", " ").replace("\n", " ")`: a
CRLF pair becomes one space, lone CR and LF each become a space. -/
def replaceCrNlSpace : Str → Str
  | [] => []
  | c :: rest =>
    if c = '\r' then
      match rest with
      | [] => [' ']
      | d :: rest2 =>
        if d = '\n' then ' ' :: replaceCrNlSpace rest2
        else ' ' :: replaceCrNlSpace (d :: rest2)
    else if c = '\n' then ' ' :: replaceCrNlSpace rest
    else c :: replaceCrNlSpace rest

/-- Tab, form feed or vertical tab — the class `[\t\f\v]`. -/
def isTabFfVt (c : Char) : Bool := c = '\t' || c = '\x0c' || c = '\x0b'

/-- `re.sub(r"[\t\f\v]+", " ", s)`: each maximal run becomes one space. -/
def collapseTabRuns : Str → Str
  | [] => []
  | c :: rest =>
    if isTabFfVt c then ' ' :: collapseTabRuns (rest.dropWhile isTabFfVt)
    else c :: collapseTabRuns rest
  termination_by s => s.length
  decreasing_by
  · exact Nat.lt_succ_of_le (List.dropWhile_suffix _).length_le
  · exact Nat.lt_succ_self _

/-- `re.sub(r"[ ]{2,}", " ", s)`: each maximal space run becomes one space. -/
def collapseSpaceRuns : Str → Str
  | [] => []
  | c :: rest =>
    if c = ' ' then ' ' :: collapseSpaceRuns (rest.dropWhile (· = ' '))
    else c :: collapseSpaceRuns rest
  termination_by s => s.length
  decreasing_by
  · exact Nat.lt_succ_of_le (List.dropWhile_suffix _).length_le
  · exact Nat.lt_succ_self _

/-- `re.sub("\n{r+1,}", "\n" * r, s)`: every maximal newline run of length
`≥ r+1` is collapsed to exactly `r` newlines, shorter runs are kept.
Used with `r = 3` (`\n{4,}` → 3) and `r = 2` (`\n{3,}` → 2). -/
def squashNlRuns (r : Nat) : Str → Str
  | [] => []
  | c :: rest =>
    if c = '\n' then
      let k := 1 + (rest.takeWhile (· = '\n')).length
      List.replicate (if r + 1 ≤ k then r else k) '\n' ++
        squashNlRuns r (rest.dropWhile (· = '\n'))
    else c :: squashNlRuns r rest
  termination_by s => s.length
  decreasing_by
  · exact Nat.lt_succ_of_le (List.dropWhile_suffix _).length_le
  · exact Nat.lt_succ_self _

/-- `normalize_spaces_keep_newlines` of `kdpsimplescraper.py`. -/
def normalizeSpacesKeepNewlines (s : Str) : Str :=
  if s = [] then s
  else collapseSpaceRuns (collapseTabRuns (replaceCrNl (replaceNbsp s)))

/-- `normalize_spaces_singleline` of `kdpsimplescraper.py`. -/
def normalizeSpacesSingleline (s : Str) : Str :=
  if s = [] then s
  else pyStrip (collapseSpaceRuns (collapseTabRuns (replaceCrNlSpace (replaceNbsp s))))

/-! ## Encoding repair (`repair_mojibake`, §4.1) -/

/-- The ten characters of the class `[ÃÂâ€˜â€™â€œâ€�â€¢â€¦]` in
`MOJIBAKE_HINT_RE` (the class notation denotes the set of its member
characters). -/
def mojibakeHintChars : List Char :=
  ['Ã', 'Â', 'â', '€', '˜', '™', 'œ', '�', '¢', '¦']

/-- ASCII hexadecimal digit, the class `[0-9a-fA-F]`. -/
def isHexDig (c : Char) : Bool :=
  decide (('0' ≤ c ∧ c ≤ '9') ∨ ('a' ≤ c ∧ c ≤ 'f') ∨ ('A' ≤ c ∧ c ≤ 'F'))

/-- Does `s` contain a literal `\xHH` escape (the branch
`\\x[0-9a-fA-F]{2}` of `MOJIBAKE_HINT_RE`)? -/
def hasEscapeSeq : Str → Bool
  | '\\' :: 'x' :: h1 :: h2 :: rest =>
    (isHexDig h1 && isHexDig h2) || hasEscapeSeq ('x' :: h1 :: h2 :: rest)
  | _ :: rest => hasEscapeSeq rest
  | [] => false

/-- `MOJIBAKE_HINT_RE.search(s)` succeeds. -/
def hasMojibakeHint (s : Str) : Bool :=
  s.any (fun c => c ∈ mojibakeHintChars) || hasEscapeSeq s

/-- `s.encode("latin-1", errors="strict")`: defined exactly when every
code point is ≤ U+00FF. -/
def latin1Encode (s : Str) : Option (List Nat) :=
  if s.all (fun c => c.toNat ≤ 0xFF) then some (s.map Char.toNat) else none

/-- `bytes.decode("utf-8", errors="strict")`: a strict UTF-8 decoder,
rejecting truncated sequences, stray continuation bytes, overlong
encodings, surrogates and code points above U+10FFFF, exactly as
CPython does. -/
def utf8DecodeStrict : List Nat → Option Str
  | [] => some []
  | b :: rest =>
    if b < 0x80 then
      (utf8DecodeStrict rest).map (fun cs => Char.ofNat b :: cs)
    else if 0xC2 ≤ b ∧ b ≤ 0xDF then
      match rest with
      | b1 :: rest1 =>
        if 0x80 ≤ b1 ∧ b1 ≤ 0xBF then
          (utf8DecodeStrict rest1).map
            (fun cs => Char.ofNat ((b - 0xC0) * 0x40 + (b1 - 0x80)) :: cs)
        else none
      | [] => none
    else if 0xE0 ≤ b ∧ b ≤ 0xEF then
      match rest with
      | b1 :: b2 :: rest2 =>
        if (0x80 ≤ b1 ∧ b1 ≤ 0xBF) ∧ (0x80 ≤ b2 ∧ b2 ≤ 0xBF) ∧
            (b = 0xE0 → 0xA0 ≤ b1) ∧ (b = 0xED → b1 ≤ 0x9F) then
          (utf8DecodeStrict rest2).map (fun cs =>
            Char.ofNat ((b - 0xE0) * 0x1000 + (b1 - 0x80) * 0x40 + (b2 - 0x80)) :: cs)
        else none
      | _ => none
    else if 0xF0 ≤ b ∧ b ≤ 0xF4 then
      match rest with
      | b1 :: b2 :: b3 :: rest3 =>
        if (0x80 ≤ b1 ∧ b1 ≤ 0xBF) ∧ (0x80 ≤ b2 ∧ b2 ≤ 0xBF) ∧ (0x80 ≤ b3 ∧ b3 ≤ 0xBF) ∧
            (b = 0xF0 → 0x90 ≤ b1) ∧ (b = 0xF4 → b1 ≤ 0x8F) then
          (utf8DecodeStrict rest3).map (fun cs =>
            Char.ofNat ((b - 0xF0) * 0x40000 + (b1 - 0x80) * 0x1000 +
              (b2 - 0x80) * 0x40 + (b3 - 0x80)) :: cs)
        else none
      | _ => none
    else none

/-- `repair_mojibake` of `kdpsimplescraper.py`: no-op on the empty
string and on strings without a tell-tale, otherwise re-encode as
Latin-1 and re-decode as strict UTF-8, falling back to the original
string when either step fails (the `try`/`except` of the source). -/
def repairMojibake (s : Str) : Str :=
  if s = [] then s
  else if hasMojibakeHint s then
    match latin1Encode s with
    | none => s
    | some bs =>
      match utf8DecodeStrict bs with
      | none => s
      | some r => r
  else s

/-- A string without mojibake tell-tales is returned unchanged. -/
theorem repairMojibake_eq_of_no_hint (t : Str) (h : hasMojibakeHint t = false) :
    repairMojibake t = t := by
  unfold repairMojibake
  by_cases ht : t = [] <;> simp [ht, h]

/-- When the Latin-1 re-encode / UTF-8 re-decode attempt fails, the
original string is returned. -/
theorem repairMojibake_eq_of_fail (t : Str)
    (h : (latin1Encode t).bind utf8DecodeStrict = none) :
    repairMojibake t = t := by
  unfold repairMojibake
  by_cases ht : t = []
  · simp [ht]
  · by_cases hh : hasMojibakeHint t
    · simp only [ht, hh, if_false, if_true]
      cases he : latin1Encode t with
      | none => rfl
      | some bs =>
        have hu : utf8DecodeStrict bs = none := by rw [he] at h; simpa using h
        simp [hu]
    · simp [ht, hh]

/-- C1, counterexample: `repair_mojibake` is not idempotent.  The
doubly-mojibaked string "Ã\x83Â©" (the UTF-8 bytes of "Ã©" read as
Latin-1, itself the mojibake of "é") repairs to "Ã©", which still
contains the tell-tale `Ã` and repairs further to "é" on a second
application. -/
theorem repair_mojibake_not_idempotent :
    repairMojibake (repairMojibake ['Ã', '\x83', 'Â', '©']) ≠
      repairMojibake ['Ã', '\x83', 'Â', '©'] := by decide

/-- C1, amended: `repair_mojibake` never raises (it is a total function
whose failure branches return the original string): a string with no
mojibake tell-tale sequence is returned unchanged, a failed Latin-1
re-encode / UTF-8 re-decode returns the original string, and repairing
twice equals repairing once *provided* the repaired string itself
contains no tell-tale sequence (which a doubly-mojibaked input
violates). -/
theorem repair_mojibake_idempotent_on_stable (s : Str)
    (h : hasMojibakeHint (repairMojibake s) = false) :
    repairMojibake (repairMojibake s) = repairMojibake s ∧
    (hasMojibakeHint s = false → repairMojibake s = s) ∧
    ((latin1Encode s).bind utf8DecodeStrict = none → repairMojibake s = s) :=
  ⟨repairMojibake_eq_of_no_hint _ h,
   fun h2 => repairMojibake_eq_of_no_hint _ h2,
   fun h3 => repairMojibake_eq_of_fail _ h3⟩

/-- Witness for C1: the singly-mojibaked "Ã©" repairs to "é", which is
stable; the hypotheses of the theorem are satisfiable. -/
theorem repair_mojibake_idempotent_on_stable_witness :
    hasMojibakeHint (repairMojibake ['Ã', '©']) = false ∧
    repairMojibake (repairMojibake ['Ã', '©']) = repairMojibake ['Ã', '©'] :=
  ⟨by decide, (repair_mojibake_idempotent_on_stable ['Ã', '©'] (by decide)).1⟩

/-! ## The fallback line-level cleaner (`BookCleaner`, `kdp1.py`) -/

/-- Substring test: does `pat` occur contiguously in `s` (Python `in`)? -/
def isSubstr (pat : Str) : Str → Bool
  | [] => List.isPrefixOf pat []
  | c :: rest => List.isPrefixOf pat (c :: rest) || isSubstr pat rest

/-- Case-lowering as used by the source's `.lower()` calls and the
`re.IGNORECASE` matches.  Modelled for ASCII letters plus `Í` (the one
non-ASCII letter occurring in the source's patterns, in `CAPÍTULO`);
other code points are fixed. -/
def lowerChar (c : Char) : Char :=
  if 'A' ≤ c ∧ c ≤ 'Z' then Char.ofNat (c.toNat + 32)
  else if c = 'Í' then 'í' else c

/-- `s.lower()` (ASCII + `Í`, see `lowerChar`). -/
def lowerStr (s : Str) : Str := s.map lowerChar

/-- ASCII decimal digit.  The source's `\d` matches any Unicode decimal
digit; it is modelled on the ASCII digits, the only ones the claims and
inputs involve. -/
def isAsciiDigit (c : Char) : Bool := decide ('0' ≤ c ∧ c ≤ '9')

/-- Number of maximal whitespace runs in `s`. -/
def wsRunCount : Str → Nat
  | [] => 0
  | c :: rest =>
    if isPyWs c then 1 + wsRunCount (rest.dropWhile isPyWs)
    else wsRunCount rest
  termination_by s => s.length
  decreasing_by
  · exact Nat.lt_succ_of_le (List.dropWhile_suffix _).length_le
  · exact Nat.lt_succ_self _

/-- Full match of `SEPARATOR_LINE_RE`, i.e.
`^\s*(\*+\s*\*+\s*\*+|[-_=]{3,}|•{3,}|·{3,}|—{3,}|_{3,})\s*$`.
The star alternative accepts exactly the strings made of stars and
whitespace that start and end with a star, contain at least three stars
and at most two interior whitespace runs (the two `\s*` slots). -/
def isSeparatorLine (s : Str) : Bool :=
  let core := pyStrip s
  (core.all (fun c => c = '*' || isPyWs c) && decide (core.head? = some '*') &&
    decide (core.getLast? = some '*') && decide (3 ≤ core.count '*') &&
    decide (wsRunCount core ≤ 2)) ||
  (decide (3 ≤ core.length) && core.all (fun c => c ∈ (['-', '_', '='] : List Char))) ||
  (decide (3 ≤ core.length) && core.all (fun c => c = '•')) ||
  (decide (3 ≤ core.length) && core.all (fun c => c = '·')) ||
  (decide (3 ≤ core.length) && core.all (fun c => c = '—')) ||
  (decide (3 ≤ core.length) && core.all (fun c => c = '_'))

/-- Full match of `BARE_NUMBER_RE` (`^\s*\d+\s*$`). -/
def isBareNumber (s : Str) : Bool :=
  let core := pyStrip s
  decide (core ≠ []) && core.all isAsciiDigit

/-- The keywords of `CHAPTER_RE`, lowered. -/
def chapterKeywords : List Str :=
  ["chapter".data, "capítulo".data, "cap.".data, "parte".data, "part".data]

/-- Lower-case Roman-numeral letters, the class `[IVXLCDM]` under
`re.IGNORECASE`. -/
def isRomanCi (c : Char) : Bool :=
  lowerChar c ∈ (['i', 'v', 'x', 'l', 'c', 'd', 'm'] : List Char)

/-- `CHAPTER_RE.match(s)` succeeds: a case-insensitive keyword prefix,
at least one whitespace character, then a Roman numeral or a decimal
number (`re.match` anchors at the start only). -/
def matchesChapterRe (s : Str) : Bool :=
  let ls := lowerStr s
  chapterKeywords.any (fun kw =>
    List.isPrefixOf kw ls &&
    (match ls.drop kw.length with
     | [] => false
     | c :: rest2 =>
       isPyWs c &&
       (match rest2.dropWhile isPyWs with
        | [] => false
        | d :: _ => isRomanCi d || isAsciiDigit d)))

/-- The decorative characters of the 1–2-character-line filter. -/
def specialShortChars : List Char := ['*', '-', '_', '=', '·', '•']

/-- One iteration of the line loop of `BookCleaner.clean_text`: the
line is NBSP-normalized and stripped, and dropped when it matches a
separator, a bare number, a 1–2-character decorative line, or (in
aggressive mode) a short non-chapter line. -/
def cleanLine (aggressive : Bool) (line : Str) : Option Str :=
  let s := pyStrip (replaceNbsp line)
  if isSeparatorLine s then none
  else if isBareNumber s then none
  else if 0 < s.length && s.length ≤ 2 && s.all (· ∈ specialShortChars) then none
  else if aggressive && 0 < s.length && s.length < 10 && !(matchesChapterRe s) then none
  else some s

/-- Apply `f` to every element except the last. -/
def mapInit (f : α → α) : List α → List α
  | [] => []
  | [a] => [a]
  | a :: b :: rest => f a :: mapInit f (b :: rest)

/-- Apply `f` to every element except the first. -/
def mapTail (f : α → α) : List α → List α
  | [] => []
  | a :: rest => a :: rest.map f

/-- `re.sub(r"[ \t]+\n", "\n", s)`: strip trailing spaces/tabs from
every line but the last. -/
def subTrailingSpTab (s : Str) : Str :=
  joinNl (mapInit (fun l => (l.reverse.dropWhile isSpTab).reverse) (splitNl s))

/-- `re.sub(r"\n[ \t]+", "\n", s)`: strip leading spaces/tabs from
every line but the first. -/
def subLeadingSpTab (s : Str) : Str :=
  joinNl (mapTail (fun l => l.dropWhile isSpTab) (splitNl s))

/-- `BookCleaner.clean_text` of `kdp1.py`. -/
def cleanText (t : Str) (aggressive : Bool) : Str :=
  let t1 := replaceCrNl t
  let cleaned := (splitNl t1).filterMap (cleanLine aggressive)
  let out1 := joinNl cleaned
  let out2 := subTrailingSpTab out1
  let out3 := subLeadingSpTab out2
  let out4 := squashNlRuns 2 out3
  pyStrip out4 ++ ['\n']

/-! ## Structure detection (`BookCleaner.detect_structure`, §4.5) -/

/-- The title / author / translator fields of `BookStructure`. -/
structure DetectState where
  title : Option Str
  author : Option Str
  translator : Option Str
deriving DecidableEq, Repr

/-- One iteration of the title/author/translator loop of
`detect_structure`: the stripped line is skipped when empty; a line of
length in (5, 200) becomes the title while the title is unset;
otherwise a line containing "by " / "por " (lower-cased) sets the
author, a line containing "translat" / "traducc" sets the translator —
with no `is None` guard, so later matches overwrite. -/
def dsStep (st : DetectState) (line : Str) : DetectState :=
  let l := pyStrip line
  if l = [] then st
  else if st.title = none ∧ 5 < l.length ∧ l.length < 200 then
    { st with title := some l }
  else if isSubstr "by ".data (lowerStr l) || isSubstr "por ".data (lowerStr l) then
    { st with author := some l }
  else if isSubstr "translat".data (lowerStr l) || isSubstr "traducc".data (lowerStr l) then
    { st with translator := some l }
  else st

/-- `BookCleaner.detect_structure` of `kdp1.py`: the
title/author/translator scan over `lines[:50]`, and the chapter scan
over every line. -/
def detectStructure (t : Str) : DetectState × List (Nat × Str) :=
  let lines := splitNl t
  (((lines.take 50).foldl dsStep ⟨none, none, none⟩),
    lines.enum.filterMap (fun p =>
      if matchesChapterRe (pyStrip p.2) then some (p.1, pyStrip p.2) else none))

/-! ## Byte decoding (`decode_html_bytes`, §4.1) -/

/-- The CP1252 mapping of the bytes `0x80`–`0x9F`; `none` for the five
bytes undefined in CP1252. -/
def cp1252High : Nat → Option Nat
  | 0x80 => some 0x20AC | 0x82 => some 0x201A | 0x83 => some 0x0192
  | 0x84 => some 0x201E | 0x85 => some 0x2026 | 0x86 => some 0x2020
  | 0x87 => some 0x2021 | 0x88 => some 0x02C6 | 0x89 => some 0x2030
  | 0x8A => some 0x0160 | 0x8B => some 0x2039 | 0x8C => some 0x0152
  | 0x8E => some 0x017D | 0x91 => some 0x2018 | 0x92 => some 0x2019
  | 0x93 => some 0x201C | 0x94 => some 0x201D | 0x95 => some 0x2022
  | 0x96 => some 0x2013 | 0x97 => some 0x2014 | 0x98 => some 0x02DC
  | 0x99 => some 0x2122 | 0x9A => some 0x0161 | 0x9B => some 0x203A
  | 0x9C => some 0x0153 | 0x9E => some 0x017E
  | _ => none

/-- `data.decode("cp1252", errors="replace")`: every byte decodes to
exactly one character, undecodable bytes become U+FFFD. -/
def cp1252DecodeReplace (data : List Nat) : Str :=
  data.map (fun b =>
    if b < 0x80 ∨ (0xA0 ≤ b ∧ b ≤ 0xFF) then Char.ofNat b
    else match cp1252High b with
      | some cp => Char.ofNat cp
      | none => '�')

/-- `decode_html_bytes` of `kdpsimplescraper.py`.  The statistical
charset detector (`charset_normalizer.from_bytes(...).best()`) is an
external library, modelled as the parameter `cn`: `none` when its
module import failed (`cn_from_bytes is None`), else a function whose
`none` result covers both `best() is None` and a raised exception. -/
def decodeHtmlBytes (cn : Option (List Nat → Option Str)) (data : List Nat) : Str :=
  match utf8DecodeStrict data with
  | some s => s
  | none =>
    match cn with
    | some f =>
      match f data with
      | some s => s
      | none => cp1252DecodeReplace data
    | none => cp1252DecodeReplace data

/-- C9: byte decoding is total and ordered — valid UTF-8 wins
regardless of the detector, a missing or inconclusive detector falls
through to CP1252-with-replacement, and the CP1252 fallback decodes
every byte (one character per byte), so some string is always
produced. -/
theorem decode_html_bytes_total_priority
    (cn : Option (List Nat → Option Str)) (data : List Nat) (s : Str)
    (hutf : utf8DecodeStrict data = some s) :
    decodeHtmlBytes cn data = s ∧
    (∀ d : List Nat, utf8DecodeStrict d = none → ∀ f,
      (cn = none ∨ (cn = some f ∧ f d = none)) →
      decodeHtmlBytes cn d = cp1252DecodeReplace d) ∧
    (∀ d : List Nat, (cp1252DecodeReplace d).length = d.length) := by
  refine ⟨by simp [decodeHtmlBytes, hutf], ?_, fun d => by simp [cp1252DecodeReplace]⟩
  intro d hd f hcn
  rcases hcn with h | ⟨h1, h2⟩
  · simp [decodeHtmlBytes, hd, h]
  · simp [decodeHtmlBytes, hd, h1, h2]

/-- Witness for C9: the byte `0xFF` is invalid UTF-8 and decodes to `ÿ`
via the CP1252 fallback; `"ok"` decodes as UTF-8 directly. -/
theorem decode_html_bytes_total_priority_witness :
    decodeHtmlBytes none [0x6F, 0x6B] = ['o', 'k'] ∧
    decodeHtmlBytes none [0xFF] = cp1252DecodeReplace [0xFF] ∧
    cp1252DecodeReplace [0xFF] = ['ÿ'] :=
  ⟨(decode_html_bytes_total_priority none [0x6F, 0x6B] ['o', 'k'] (by decide)).1,
   (decode_html_bytes_total_priority none [0x6F, 0x6B] ['o', 'k'] (by decide)).2.1
     [0xFF] (by decide) (fun _ => none) (Or.inl rfl),
   by decide⟩

/-! ## Basic facts about `splitNl` / `joinNl` -/

theorem splitNl_ne_nil (s : Str) : splitNl s ≠ [] := by
  cases s with
  | nil => simp [splitNl]
  | cons c rest =>
    unfold splitNl
    by_cases h : c = '\n'
    · simp [h]
    · simp only [h, if_false]
      cases splitNl rest <;> simp

theorem splitNl_cons_nl (rest : Str) : splitNl ('\n' :: rest) = [] :: splitNl rest := by
  simp [splitNl]

theorem splitNl_cons_ne {c : Char} (h : c ≠ '\n') {rest : Str} {l : Str} {ls : List Str}
    (hs : splitNl rest = l :: ls) : splitNl (c :: rest) = (c :: l) :: ls := by
  unfold splitNl
  simp [h, hs]

theorem nl_not_mem_splitNl {s l : Str} (h : l ∈ splitNl s) : '\n' ∉ l := by
  induction s generalizing l with
  | nil =>
    rw [show splitNl [] = [[]] from rfl, List.mem_singleton] at h
    subst h; simp
  | cons c rest ih =>
    by_cases hc : c = '\n'
    · subst hc
      rw [splitNl_cons_nl, List.mem_cons] at h
      rcases h with h | h
      · subst h; simp
      · exact ih h
    · cases hs : splitNl rest with
      | nil => exact absurd hs (splitNl_ne_nil rest)
      | cons l2 ls =>
        rw [splitNl_cons_ne hc hs, List.mem_cons] at h
        rcases h with h | h
        · subst h
          intro hmem
          rw [List.mem_cons] at hmem
          rcases hmem with h2 | h2
          · exact hc h2.symm
          · exact ih (show l2 ∈ splitNl rest by rw [hs]; exact List.mem_cons_self _ _) h2
        · exact ih (show l ∈ splitNl rest by rw [hs]; exact List.mem_cons_of_mem _ h)

theorem joinNl_nil : joinNl [] = [] := rfl

theorem joinNl_singleton (l : Str) : joinNl [l] = l := by
  simp [joinNl, List.intercalate]

theorem joinNl_cons (l : Str) {ls : List Str} (h : ls ≠ []) :
    joinNl (l :: ls) = l ++ '\n' :: joinNl ls := by
  cases ls with
  | nil => exact absurd rfl h
  | cons b bs =>
    simp [joinNl, List.intercalate, List.intersperse]

theorem joinNl_splitNl (s : Str) : joinNl (splitNl s) = s := by
  induction s with
  | nil => simp [splitNl, joinNl_singleton]
  | cons c rest ih =>
    by_cases hc : c = '\n'
    · subst hc
      rw [splitNl_cons_nl, joinNl_cons _ (splitNl_ne_nil rest), ih]
      rfl
    · cases hs : splitNl rest with
      | nil => exact absurd hs (splitNl_ne_nil rest)
      | cons l ls =>
        rw [splitNl_cons_ne hc hs]
        cases ls with
        | nil =>
          rw [joinNl_singleton]
          rw [hs, joinNl_singleton] at ih
          simp [ih]
        | cons b bs =>
          rw [joinNl_cons _ (by simp)]
          rw [hs, joinNl_cons _ (by simp)] at ih
          simp [ih]

theorem splitNl_no_nl {l : Str} (h : '\n' ∉ l) : splitNl l = [l] := by
  induction l with
  | nil => simp [splitNl]
  | cons c rest ih =>
    have hc : c ≠ '\n' := fun he => h (he ▸ List.mem_cons_self _ _)
    have hrest : '\n' ∉ rest := fun hm => h (List.mem_cons_of_mem _ hm)
    exact splitNl_cons_ne hc (ih hrest)

theorem splitNl_append_nl (x y : Str) :
    splitNl (x ++ '\n' :: y) = splitNl x ++ splitNl y := by
  induction x with
  | nil => simp [splitNl_cons_nl, splitNl]
  | cons c rest ih =>
    by_cases hc : c = '\n'
    · subst hc
      simp only [List.cons_append, splitNl_cons_nl, ih]
    · cases hs : splitNl rest with
      | nil => exact absurd hs (splitNl_ne_nil rest)
      | cons l ls =>
        rw [hs] at ih
        rw [List.cons_append, splitNl_cons_ne hc (by rw [ih]; rfl),
          splitNl_cons_ne hc hs]
        simp

theorem splitNl_joinNl {ls : List Str} (hnl : ∀ l ∈ ls, '\n' ∉ l) (hne : ls ≠ []) :
    splitNl (joinNl ls) = ls := by
  induction ls with
  | nil => exact absurd rfl hne
  | cons l ls ih =>
    cases ls with
    | nil =>
      rw [joinNl_singleton]
      exact splitNl_no_nl (hnl l (List.mem_cons_self _ _))
    | cons b bs =>
      rw [joinNl_cons _ (by simp), splitNl_append_nl,
        splitNl_no_nl (hnl l (List.mem_cons_self _ _)),
        ih (fun x hx => hnl x (List.mem_cons_of_mem _ hx)) (by simp)]
      rfl

/-! ## C4: the `detect_structure` scan -/

/-- The title once set is never changed by a later line. -/
theorem dsStep_title_set {st : DetectState} {x : Str} (h : st.title = some x) (l : Str) :
    (dsStep st l).title = some x := by
  simp only [dsStep]
  split_ifs <;> simp_all

theorem foldl_dsStep_title_set {st : DetectState} {x : Str} (h : st.title = some x)
    (ls : List Str) : (ls.foldl dsStep st).title = some x := by
  induction ls generalizing st with
  | nil => exact h
  | cons l ls ih => exact ih (dsStep_title_set h l)

/-- The title-candidate test of the scan loop. -/
def titleCand (l : Str) : Bool :=
  decide (pyStrip l ≠ [] ∧ 5 < (pyStrip l).length ∧ (pyStrip l).length < 200)

/-- While the title is unset, the scan sets it to the first candidate. -/
theorem foldl_dsStep_title_none {st : DetectState} (h : st.title = none)
    (ls : List Str) :
    (ls.foldl dsStep st).title = (ls.find? titleCand).map pyStrip := by
  induction ls generalizing st with
  | nil => simp [h]
  | cons l ls ih =>
    by_cases hc : titleCand l
    · have hc2 : pyStrip l ≠ [] ∧ 5 < (pyStrip l).length ∧ (pyStrip l).length < 200 := by
        unfold titleCand at hc
        exact of_decide_eq_true hc
      have hset : (dsStep st l).title = some (pyStrip l) := by
        simp only [dsStep]
        rw [if_neg hc2.1, if_pos ⟨h, hc2.2.1, hc2.2.2⟩]
      rw [List.foldl_cons, List.find?_cons_of_pos _ hc,
        foldl_dsStep_title_set hset ls]
      rfl
    · have hc2 : ¬(pyStrip l ≠ [] ∧ 5 < (pyStrip l).length ∧ (pyStrip l).length < 200) := by
        intro hcon
        exact hc (by unfold titleCand; exact decide_eq_true hcon)
      have hkeep : (dsStep st l).title = none := by
        simp only [dsStep]
        split_ifs with h1 h2 h3 h4
        · exact h
        · exact absurd ⟨h1, h2.2.1, h2.2.2⟩ hc2
        · exact h
        · exact h
        · exact h
      rw [List.foldl_cons, List.find?_cons_of_neg _ hc, ih hkeep]

/-- C4, counterexample: the claim fails on the code in two ways.  (a)
Author is not first-match-wins: with lines "A good title line",
"by Alice", "by Bob", the later candidate "by Bob" overwrites the
already-set author "by Alice".  (b) The scan window is the first 50
*lines*, not the first 50 *non-empty* lines: a title line preceded by
50 empty lines (so it is the first non-empty line) is never examined. -/
theorem detect_structure_scan_counterexample :
    ((detectStructure ("A good title line\nby Alice\nby Bob".data)).1.author =
        some ("by Bob".data) ∧
      (detectStructure ("A good title line\nby Alice".data)).1.author =
        some ("by Alice".data)) ∧
    (detectStructure (joinNl (List.replicate 50 [] ++
      ["A proper title line".data]))).1.title = none := by decide

/-- C4, amended: `detect_structure` scans the first 50 *lines* of the
text (empty lines count toward the window but are skipped as
candidates); the first matching line wins for the title only, while
for author and translator each matching line in the window overwrites
the field, so the last match wins.  Conjuncts: the three fields depend
only on the first 50 lines; the title is the first title-candidate of
the window; a line reaching the author branch always overwrites the
author; a line reaching the translator branch always overwrites the
translator. -/
theorem detect_structure_scan_amended (t : Str) (st : DetectState) (l : Str)
    (hne : pyStrip l ≠ [])
    (hnt : ¬(st.title = none ∧ 5 < (pyStrip l).length ∧ (pyStrip l).length < 200))
    (hby : (isSubstr "by ".data (lowerStr (pyStrip l)) ||
      isSubstr "por ".data (lowerStr (pyStrip l))) = true) :
    (detectStructure t).1 = (detectStructure (joinNl ((splitNl t).take 50))).1 ∧
    (detectStructure t).1.title = (((splitNl t).take 50).find? titleCand).map pyStrip ∧
    (dsStep st l).author = some (pyStrip l) ∧
    (∀ (st2 : DetectState) (l2 : Str), pyStrip l2 ≠ [] →
      ¬(st2.title = none ∧ 5 < (pyStrip l2).length ∧ (pyStrip l2).length < 200) →
      (isSubstr "by ".data (lowerStr (pyStrip l2)) ||
        isSubstr "por ".data (lowerStr (pyStrip l2))) = false →
      (isSubstr "translat".data (lowerStr (pyStrip l2)) ||
        isSubstr "traducc".data (lowerStr (pyStrip l2))) = true →
      (dsStep st2 l2).translator = some (pyStrip l2)) := by
  refine ⟨?_, ?_, ?_, ?_⟩
  · have h1 : splitNl (joinNl ((splitNl t).take 50)) = (splitNl t).take 50 := by
      apply splitNl_joinNl
      · intro x hx
        exact nl_not_mem_splitNl (List.mem_of_mem_take hx)
      · cases hs : splitNl t with
        | nil => exact absurd hs (splitNl_ne_nil t)
        | cons a as => simp
    unfold detectStructure
    simp only [h1, List.take_take, min_self]
  · unfold detectStructure
    exact foldl_dsStep_title_none rfl _
  · simp only [dsStep]
    rw [if_neg hne, if_neg hnt, if_pos hby]
  · intro st2 l2 hne2 hnt2 hby2 htr2
    simp only [dsStep]
    rw [if_neg hne2, if_neg hnt2, hby2]
    simp only [Bool.false_eq_true, if_false, if_pos htr2]

/-- Witness for C4: a concrete author line processed in a state whose
title is already set. -/
theorem detect_structure_scan_amended_witness :
    pyStrip ("by Alice".data) ≠ [] ∧
    (dsStep ⟨some ("T".data), none, none⟩ ("by Alice".data)).author =
      some ("by Alice".data) :=
  ⟨by decide,
   (detect_structure_scan_amended [] ⟨some ("T".data), none, none⟩ ("by Alice".data)
     (by decide) (by decide) (by decide)).2.2.1⟩

/-! ## Newline-run machinery -/

/-- Length of the leading newline run. -/
def leadNl (s : Str) : Nat := (s.takeWhile (· = '\n')).length

/-- `s` has no run of `m` consecutive newlines. -/
def noNlRun (m : Nat) (s : Str) : Prop := ¬ (List.replicate m '\n' <:+: s)

theorem dropWhile_head_false {p : α → Bool} {l : List α} {c : α} {t : List α}
    (h : l.dropWhile p = c :: t) : p c = false := by
  induction l with
  | nil => simp [List.dropWhile] at h
  | cons a l ih =>
    rw [List.dropWhile_cons] at h
    by_cases hp : p a
    · rw [if_pos hp] at h
      exact ih h
    · rw [if_neg hp] at h
      cases h
      exact Bool.not_eq_true _ |>.mp hp

theorem dropWhile_idem {p : α → Bool} (l : List α) :
    (l.dropWhile p).dropWhile p = l.dropWhile p := by
  cases h : l.dropWhile p with
  | nil => simp
  | cons c t => rw [List.dropWhile_cons, if_neg (by simp [dropWhile_head_false h])]

theorem pyRStrip_idem (s : Str) : pyRStrip (pyRStrip s) = pyRStrip s := by
  unfold pyRStrip
  rw [List.reverse_reverse, dropWhile_idem]

theorem pyLStrip_idem (s : Str) : pyLStrip (pyLStrip s) = pyLStrip s := by
  unfold pyLStrip
  exact dropWhile_idem s

theorem pyRStrip_pyStrip (s : Str) : pyRStrip (pyStrip s) = pyStrip s := by
  unfold pyStrip
  exact pyRStrip_idem _

theorem pyLStrip_pyRStrip_comm (s : Str) (h : pyLStrip s = s) :
    pyLStrip (pyRStrip s) = pyRStrip s := by
  cases hr : pyRStrip s with
  | nil => simp [pyLStrip, List.dropWhile]
  | cons c t =>
    have hpre : pyRStrip s <+: s := by
      rw [← List.reverse_suffix]
      unfold pyRStrip
      rw [List.reverse_reverse]
      exact List.dropWhile_suffix _
    rcases hpre with ⟨u, hu⟩
    rw [hr] at hu
    have hc : isPyWs c = false := by
      have := congrArg pyLStrip hu.symm
      rw [h] at this
      by_contra hcc
      rw [Bool.not_eq_false] at hcc
      rw [List.cons_append] at this
      unfold pyLStrip at this
      rw [List.dropWhile_cons, if_pos hcc] at this
      have hs : s.length = t.length + u.length + 1 := by
        rw [← hu]; simp
      have hlen := congrArg List.length this
      have hle : ((t ++ u).dropWhile isPyWs).length ≤ (t ++ u).length :=
        (List.dropWhile_suffix _).length_le
      simp only [List.length_append] at hle
      omega
    unfold pyLStrip
    rw [List.dropWhile_cons, if_neg (by simp [hc])]

theorem pyLStrip_pyStrip (s : Str) : pyLStrip (pyStrip s) = pyStrip s := by
  unfold pyStrip
  exact pyLStrip_pyRStrip_comm _ (pyLStrip_idem s)

theorem pyStrip_idem (s : Str) : pyStrip (pyStrip s) = pyStrip s := by
  rw [show pyStrip (pyStrip s) = pyRStrip (pyLStrip (pyStrip s)) from rfl,
    pyLStrip_pyStrip, pyRStrip_pyStrip]

/-- A prefix made of `m` newlines forces a leading run of at least `m`. -/
theorem le_leadNl_of_replicate_isPre {m : Nat} {s : Str}
    (h : List.replicate m '\n' <+: s) : m ≤ leadNl s := by
  induction m generalizing s with
  | zero => exact Nat.zero_le _
  | succ m ih =>
    rw [List.replicate_succ] at h
    cases s with
    | nil => simp at h
    | cons c rest =>
      rw [List.cons_prefix_cons] at h
      rcases h with ⟨hc, hpre⟩
      subst hc
      have h2 := ih hpre
      unfold leadNl at *
      rw [List.takeWhile_cons, if_pos (by simp)]
      simpa using Nat.succ_le_succ h2

theorem leadNl_replicate_append (j : Nat) (y : Str) :
    leadNl (List.replicate j '\n' ++ y) = j + leadNl y := by
  unfold leadNl
  rw [List.takeWhile_append_of_pos (by intro a ha; simp [List.eq_of_mem_replicate ha])]
  simp

theorem leadNl_cons_ne {c : Char} (h : c ≠ '\n') (rest : Str) :
    leadNl (c :: rest) = 0 := by
  simp [leadNl, List.takeWhile_cons, h]

theorem noNlRun_of_sub {m : Nat} {s t : Str} (ht : t <:+: s) (h : noNlRun m s) :
    noNlRun m t := fun hc => h (hc.trans ht)

/-- Prepending fewer than `m` newlines to a string that starts with a
non-newline keeps `noNlRun m`. -/
theorem noNlRun_replicate_append {m j : Nat} {y : Str} (hy : noNlRun m y)
    (hl : leadNl y = 0) (hj : j < m) :
    noNlRun m (List.replicate j '\n' ++ y) := by
  induction j with
  | zero => simpa using hy
  | succ j ih =>
    intro hinf
    rw [List.replicate_succ, List.cons_append, List.infix_cons_iff] at hinf
    rcases hinf with hpre | hinf
    · rcases m with _ | m1
      · omega
      · rw [List.replicate_succ, List.cons_prefix_cons] at hpre
        have := le_leadNl_of_replicate_isPre hpre.2
        rw [leadNl_replicate_append, hl] at this
        omega
    · exact ih (by omega) hinf

theorem squash_cons_ne {r : Nat} {c : Char} (h : c ≠ '\n') (rest : Str) :
    squashNlRuns r (c :: rest) = c :: squashNlRuns r rest := by
  rw [squashNlRuns]
  simp [h]

theorem squash_cons_nl (r : Nat) (rest : Str) :
    squashNlRuns r ('\n' :: rest) =
      List.replicate
        (if r + 1 ≤ 1 + (rest.takeWhile (· = '\n')).length then r
         else 1 + (rest.takeWhile (· = '\n')).length) '\n' ++
        squashNlRuns r (rest.dropWhile (· = '\n')) := by
  rw [squashNlRuns]
  simp

theorem leadNl_zero_of_dropWhile {s : Str} : leadNl (s.dropWhile (· = '\n')) = 0 := by
  cases h : s.dropWhile (· = '\n') with
  | nil => simp [leadNl]
  | cons c t =>
    have := dropWhile_head_false h
    simp only [decide_eq_false_iff_not] at this
    exact leadNl_cons_ne this t

theorem leadNl_squash_zero {r : Nat} {s : Str} (h : leadNl s = 0) :
    leadNl (squashNlRuns r s) = 0 := by
  cases s with
  | nil => simp [squashNlRuns, leadNl]
  | cons c rest =>
    have hc : c ≠ '\n' := by
      intro hc
      subst hc
      simp [leadNl, List.takeWhile_cons] at h
    rw [squash_cons_ne hc]
    exact leadNl_cons_ne hc _

/-- Output of the newline-run collapser has no run of `r + 1`. -/
theorem squash_noNlRun (r : Nat) (s : Str) :
    noNlRun (r + 1) (squashNlRuns r s) := by
  induction s using squashNlRuns.induct r with
  | case1 =>
    intro h
    rw [show squashNlRuns r [] = [] from by rw [squashNlRuns]] at h
    rw [List.infix_nil] at h
    simp [List.replicate_succ] at h
  | case2 rest ih =>
    rw [squash_cons_nl]
    refine noNlRun_replicate_append ih (leadNl_squash_zero leadNl_zero_of_dropWhile) ?_
    split <;> omega
  | case3 c rest hc ih =>
    rw [squash_cons_ne hc]
    intro hinf
    rw [List.infix_cons_iff] at hinf
    rcases hinf with hpre | hinf
    · rw [List.replicate_succ, List.cons_prefix_cons] at hpre
      exact hc hpre.1.symm
    · exact ih hinf

theorem replicate_isPre_replicate {a : α} {m k : Nat} (h : m ≤ k) :
    List.replicate m a <+: List.replicate k a :=
  ⟨List.replicate (k - m) a, by rw [← List.replicate_add]; congr 1; omega⟩

theorem takeWhile_nl_eq_replicate (s : Str) :
    s.takeWhile (· = '\n') = List.replicate (leadNl s) '\n' := by
  unfold leadNl
  apply List.eq_replicate_of_mem
  intro b hb
  have := List.mem_takeWhile_imp hb
  simpa using this

/-- A string with no forbidden newline run is unchanged by the collapser. -/
theorem squash_eq_self {r : Nat} {s : Str} (h : noNlRun (r + 1) s) :
    squashNlRuns r s = s := by
  induction s using squashNlRuns.induct r with
  | case1 => rw [squashNlRuns]
  | case2 rest ih =>
    rw [squash_cons_nl]
    have hdec : '\n' :: rest =
        List.replicate (1 + (rest.takeWhile (· = '\n')).length) '\n' ++
          rest.dropWhile (· = '\n') := by
      have h1 : List.replicate (1 + (rest.takeWhile (· = '\n')).length) '\n' =
          '\n' :: rest.takeWhile (· = '\n') := by
        rw [takeWhile_nl_eq_replicate]
        simp only [List.length_replicate]
        rw [Nat.add_comm, List.replicate_succ]
      rw [h1, List.cons_append, List.takeWhile_append_dropWhile]
    have hnotle : ¬ (r + 1 ≤ 1 + (rest.takeWhile (· = '\n')).length) := by
      intro hle
      apply h
      have hpre : List.replicate (r + 1) '\n' <+: '\n' :: rest := by
        rw [hdec]
        exact (replicate_isPre_replicate hle).trans ⟨_, rfl⟩
      exact hpre.isInfix
    rw [if_neg hnotle, ih ?_]
    · exact hdec.symm
    · exact noNlRun_of_sub ((List.dropWhile_suffix _).isInfix.trans
        ((List.suffix_cons '\n' rest).isInfix)) h
  | case3 c rest hc ih =>
    rw [squash_cons_ne hc, ih (noNlRun_of_sub (List.suffix_cons c rest).isInfix h)]

/-- The first line of a string. -/
def firstLine (s : Str) : Str := s.takeWhile (· ≠ '\n')

theorem splitNl_head_eq_firstLine {s : Str} {l : Str} {ls : List Str}
    (h : splitNl s = l :: ls) : l = firstLine s := by
  induction s generalizing l ls with
  | nil =>
    rw [show splitNl [] = [[]] from rfl] at h
    cases h
    rfl
  | cons c rest ih =>
    by_cases hc : c = '\n'
    · subst hc
      rw [splitNl_cons_nl] at h
      cases h
      simp [firstLine, List.takeWhile_cons]
    · cases hs : splitNl rest with
      | nil => exact absurd hs (splitNl_ne_nil rest)
      | cons l1 ls1 =>
        rw [splitNl_cons_ne hc hs] at h
        cases h
        rw [firstLine, List.takeWhile_cons, if_pos (by simp [hc])]
        rw [ih hs]
        rfl

theorem splitNl_replicate_append (j : Nat) (y : Str) :
    splitNl (List.replicate j '\n' ++ y) = List.replicate j [] ++ splitNl y := by
  induction j with
  | zero => simp
  | succ j ih =>
    rw [List.replicate_succ, List.cons_append, splitNl_cons_nl, ih,
      List.replicate_succ, List.cons_append]

theorem squash_firstLine {r : Nat} (hr : 1 ≤ r) (s : Str) :
    firstLine (squashNlRuns r s) = firstLine s := by
  induction s using squashNlRuns.induct r with
  | case1 => rw [squashNlRuns]
  | case2 rest ih =>
    rw [squash_cons_nl]
    have hj : 1 ≤ (if r + 1 ≤ 1 + (rest.takeWhile (· = '\n')).length then r
        else 1 + (rest.takeWhile (· = '\n')).length) := by
      split <;> omega
    rcases Nat.exists_eq_add_of_le hj with ⟨j2, hj2⟩
    rw [hj2, Nat.add_comm 1 j2, List.replicate_succ, List.cons_append]
    unfold firstLine
    rw [List.takeWhile_cons, List.takeWhile_cons]
    simp
  | case3 c rest hc ih =>
    rw [squash_cons_ne hc]
    unfold firstLine at *
    rw [List.takeWhile_cons, List.takeWhile_cons, if_pos (by simp [hc]),
      if_pos (by simp [hc]), ih]

theorem filter_ne_nil_replicate : (List.replicate j ([] : Str)).filter (· ≠ []) = [] := by
  induction j with
  | zero => rfl
  | succ j ih => rw [List.replicate_succ, List.filter_cons]; simpa using ih

/-- The collapser preserves the nonempty lines (in order, with
multiplicity). -/
theorem squash_lines_filter {r : Nat} (hr : 1 ≤ r) (s : Str) :
    (splitNl (squashNlRuns r s)).filter (· ≠ []) =
      (splitNl s).filter (· ≠ []) := by
  induction s using squashNlRuns.induct r with
  | case1 => rw [squashNlRuns]
  | case2 rest ih =>
    have hdec : splitNl rest =
        List.replicate (leadNl rest) [] ++ splitNl (rest.dropWhile (· = '\n')) := by
      conv_lhs => rw [show rest = List.replicate (leadNl rest) '\n' ++
          rest.dropWhile (· = '\n') from by
        conv_lhs => rw [← List.takeWhile_append_dropWhile (p := (· = '\n')) (l := rest)]
        rw [takeWhile_nl_eq_replicate]]
      rw [splitNl_replicate_append]
    rw [squash_cons_nl, splitNl_replicate_append, splitNl_cons_nl, hdec]
    rw [List.filter_append, List.filter_cons, List.filter_append]
    simp only [filter_ne_nil_replicate, List.nil_append]
    rw [if_neg (by simp)]
    exact ih
  | case3 c rest hc ih =>
    cases hs2 : splitNl (squashNlRuns r rest) with
    | nil => exact absurd hs2 (splitNl_ne_nil _)
    | cons l2 ls2 =>
      cases hs1 : splitNl rest with
      | nil => exact absurd hs1 (splitNl_ne_nil rest)
      | cons l1 ls1 =>
        have hl : l2 = l1 := by
          rw [splitNl_head_eq_firstLine hs2, splitNl_head_eq_firstLine hs1,
            squash_firstLine hr]
        subst hl
        rw [squash_cons_ne hc, splitNl_cons_ne hc hs2, splitNl_cons_ne hc hs1]
        rw [hs2, hs1] at ih
        by_cases h1 : l2 = []
        · subst h1
          rw [List.filter_cons, List.filter_cons, if_neg (by simp), if_neg (by simp)] at ih
          rw [List.filter_cons, List.filter_cons, if_pos (by simp), if_pos (by simp)]
          rw [ih]
        · rw [List.filter_cons, List.filter_cons, if_pos (by simpa using h1),
            if_pos (by simpa using h1)] at ih
          rw [List.filter_cons, List.filter_cons, if_pos (by simp), if_pos (by simp)]
          simp only [List.cons.injEq, true_and] at ih
          rw [ih]

theorem mem_splitNl_squash {r : Nat} (hr : 1 ≤ r) {s l : Str}
    (h : l ∈ splitNl (squashNlRuns r s)) : l ∈ splitNl s ∨ l = [] := by
  by_cases hl : l = []
  · exact Or.inr hl
  · left
    have : l ∈ (splitNl (squashNlRuns r s)).filter (· ≠ []) := by
      rw [List.mem_filter]
      exact ⟨h, by simpa using hl⟩
    rw [squash_lines_filter hr] at this
    exact (List.mem_filter.mp this).1

/-! ## Stripping a joined string trims whole blank lines -/

theorem isPyWs_nl : isPyWs '\n' = true := by decide

theorem head_not_ws_of_lstrip_fixed {l : Str} (h : pyLStrip l = l) {c : Char} {t : Str}
    (hl : l = c :: t) : isPyWs c = false := by
  subst hl
  by_contra hc
  rw [Bool.not_eq_false] at hc
  unfold pyLStrip at h
  rw [List.dropWhile_cons, if_pos hc] at h
  have := congrArg List.length h
  have h2 : (t.dropWhile isPyWs).length ≤ t.length := (List.dropWhile_suffix _).length_le
  simp at this
  omega

theorem pyLStrip_joinNl {ls : List Str}
    (h : ∀ l ∈ ls, pyLStrip l = l) :
    pyLStrip (joinNl ls) = joinNl (ls.dropWhile (· = [])) := by
  induction ls with
  | nil => rfl
  | cons l ls ih =>
    cases ls with
    | nil =>
      rw [joinNl_singleton]
      cases hl : l with
      | nil =>
        rw [show List.dropWhile (fun x => decide (x = [])) [([] : Str)] = [] from by
          rw [List.dropWhile_cons]; simp [List.dropWhile]]
        rfl
      | cons c t =>
        have hc := head_not_ws_of_lstrip_fixed (h l (List.mem_cons_self _ _)) hl
        rw [show List.dropWhile (fun x => decide (x = [])) [c :: t] = [c :: t] from by
          rw [List.dropWhile_cons]; simp]
        rw [joinNl_singleton]
        unfold pyLStrip
        rw [List.dropWhile_cons, if_neg (by simp [hc])]
    | cons b bs =>
      rw [joinNl_cons _ (by simp)]
      cases hl : l with
      | nil =>
        simp only [List.nil_append]
        have hmain : pyLStrip ('\n' :: joinNl (b :: bs)) = pyLStrip (joinNl (b :: bs)) := by
          unfold pyLStrip
          rw [List.dropWhile_cons, if_pos isPyWs_nl]
        rw [hmain, ih (fun x hx => h x (List.mem_cons_of_mem _ hx))]
        rw [show List.dropWhile (fun x => decide (x = [])) (([] : Str) :: b :: bs) =
          List.dropWhile (fun x => decide (x = [])) (b :: bs) from by
          rw [List.dropWhile_cons]; simp]
      | cons c t =>
        have hc := head_not_ws_of_lstrip_fixed (h l (List.mem_cons_self _ _)) hl
        rw [List.cons_append]
        unfold pyLStrip
        rw [List.dropWhile_cons, if_neg (by simp [hc])]
        rw [show List.dropWhile (fun x => decide (x = [])) ((c :: t) :: b :: bs) =
          (c :: t) :: b :: bs from by rw [List.dropWhile_cons]; simp]
        exact ((@joinNl_cons (c :: t) (b :: bs) (by simp)).trans
          (by rw [List.cons_append])).symm

theorem pyRStrip_append (x y : Str) :
    pyRStrip (x ++ y) = if pyRStrip y = [] then pyRStrip x else x ++ pyRStrip y := by
  have hiff : (y.reverse.dropWhile isPyWs).isEmpty = true ↔ pyRStrip y = [] := by
    rw [List.isEmpty_iff]
    unfold pyRStrip
    constructor
    · intro h; rw [h]; rfl
    · intro h
      have := congrArg List.reverse h
      rwa [List.reverse_reverse] at this
  by_cases h : (y.reverse.dropWhile isPyWs).isEmpty
  · rw [if_pos (hiff.mp h)]
    show ((x ++ y).reverse.dropWhile isPyWs).reverse = _
    rw [List.reverse_append, List.dropWhile_append, if_pos h]
    rfl
  · rw [if_neg (fun hc => h (hiff.mpr hc))]
    show ((x ++ y).reverse.dropWhile isPyWs).reverse = _
    rw [List.reverse_append, List.dropWhile_append, if_neg h]
    rw [List.reverse_append, List.reverse_reverse]
    rfl

/-- Drop trailing empty lines. -/
def revDropEmpty (ls : List Str) : List Str :=
  ((ls.reverse).dropWhile (· = [])).reverse

theorem joinNl_append_singleton (ys : List Str) (x : Str) :
    joinNl (ys ++ [x]) = if ys = [] then x else joinNl ys ++ '\n' :: x := by
  induction ys with
  | nil => simp [joinNl_singleton]
  | cons y ys ih =>
    rw [if_neg (by simp), List.cons_append, joinNl_cons _ (by simp)]
    cases ys with
    | nil =>
      simp only [List.nil_append]
      rw [joinNl_singleton, joinNl_singleton]
    | cons b bs =>
      rw [ih, if_neg (by simp)]
      rw [show joinNl (y :: b :: bs) = y ++ '\n' :: joinNl (b :: bs) from
        joinNl_cons _ (by simp)]
      simp

theorem joinNl_revDropEmpty_ne_nil {ls : List Str} (h : revDropEmpty ls ≠ []) :
    joinNl (revDropEmpty ls) ≠ [] := by
  unfold revDropEmpty at *
  cases hR : (ls.reverse).dropWhile (· = []) with
  | nil => rw [hR] at h; simp at h
  | cons x xs =>
    have hx : x ≠ [] := by
      have := dropWhile_head_false hR
      simpa using this
    rw [List.reverse_cons, joinNl_append_singleton]
    by_cases hxs : xs.reverse = []
    · rw [if_pos hxs]; exact hx
    · rw [if_neg hxs]; simp

theorem pyRStrip_joinNl {ls : List Str} (h : ∀ l ∈ ls, pyRStrip l = l) :
    pyRStrip (joinNl ls) = joinNl (revDropEmpty ls) := by
  induction ls with
  | nil => rfl
  | cons l ls ih =>
    cases ls with
    | nil =>
      rw [joinNl_singleton, h l (List.mem_cons_self _ _)]
      unfold revDropEmpty
      cases hl : l with
      | nil => simp [List.dropWhile, joinNl_nil]
      | cons c t =>
        rw [List.reverse_singleton, show List.dropWhile (fun x => decide (x = []))
          [c :: t] = [c :: t] from by rw [List.dropWhile_cons]; simp]
        rw [List.reverse_singleton, joinNl_singleton]
    | cons b bs =>
      have hRS := ih (fun x hx => h x (List.mem_cons_of_mem _ hx))
      rw [joinNl_cons _ (by simp)]
      rw [show l ++ '\n' :: joinNl (b :: bs) = l ++ (['\n'] ++ joinNl (b :: bs)) from by simp]
      rw [← List.append_assoc, pyRStrip_append (l ++ ['\n']) (joinNl (b :: bs)), hRS]
      by_cases hR : revDropEmpty (b :: bs) = []
      · rw [hR, joinNl_nil, if_pos rfl]
        have hln : pyRStrip (l ++ ['\n']) = pyRStrip l := by
          have hn : pyRStrip ['\n'] = [] := by decide
          rw [pyRStrip_append, hn, if_pos rfl]
        rw [hln, h l (List.mem_cons_self _ _)]
        have hall : ∀ x ∈ (b :: bs : List Str), x = [] := by
          intro x hx
          unfold revDropEmpty at hR
          have h2 : ∀ y ∈ (b :: bs : List Str).reverse, y = ([] : Str) := by
            have := List.dropWhile_eq_nil_iff.mp (by
              have := congrArg List.reverse hR
              rwa [List.reverse_reverse, List.reverse_nil] at this)
            intro y hy
            simpa using this y hy
          exact h2 x (List.mem_reverse.mpr hx)
        unfold revDropEmpty
        rw [List.reverse_cons, List.dropWhile_append]
        rw [show ((b :: bs : List Str).reverse.dropWhile (· = [])) = [] from by
          rw [List.dropWhile_eq_nil_iff]
          intro y hy
          simp [hall y (List.mem_reverse.mp hy)]]
        simp only [List.isEmpty_nil, if_true]
        cases hl : l with
        | nil => simp [List.dropWhile, joinNl_nil]
        | cons c t =>
          rw [show List.dropWhile (fun x => decide (x = [])) [c :: t] = [c :: t] from by
            rw [List.dropWhile_cons]; simp]
          rw [List.reverse_singleton, joinNl_singleton]
      · rw [if_neg (joinNl_revDropEmpty_ne_nil hR)]
        have hstep : revDropEmpty (l :: b :: bs) = l :: revDropEmpty (b :: bs) := by
          unfold revDropEmpty
          rw [List.reverse_cons, List.dropWhile_append]
          have hne : ¬ (((b :: bs : List Str).reverse.dropWhile (· = [])).isEmpty = true) := by
            rw [List.isEmpty_iff]
            intro hc
            apply hR
            unfold revDropEmpty
            rw [hc]
            rfl
          rw [if_neg hne, List.reverse_append]
          simp
        rw [hstep, joinNl_cons _ hR]
        simp

/-! ## Character membership and fixed-point lemmas -/

theorem mem_revDropEmpty {ls : List Str} {l : Str} (h : l ∈ revDropEmpty ls) : l ∈ ls := by
  unfold revDropEmpty at h
  rw [List.mem_reverse] at h
  have hsf : List.dropWhile (fun x : Str => decide (x = [])) ls.reverse <:+ ls.reverse :=
    List.dropWhile_suffix _
  have := hsf.sublist.subset h
  exact List.mem_reverse.mp this

theorem pyRStrip_isPre (s : Str) : pyRStrip s <+: s := by
  rw [← List.reverse_suffix]
  unfold pyRStrip
  rw [List.reverse_reverse]
  exact List.dropWhile_suffix _

theorem pyStrip_isInfix (s : Str) : pyStrip s <:+: s :=
  (pyRStrip_isPre (pyLStrip s)).isInfix.trans (List.dropWhile_suffix _).isInfix

theorem mem_pyStrip {s : Str} {c : Char} (h : c ∈ pyStrip s) : c ∈ s :=
  (pyStrip_isInfix s).subset h

/-- Lines of a pyStrip-fixed-line string survive outer stripping (up to
dropped blank lines). -/
theorem mem_splitNl_pyStrip {s : Str}
    (h : ∀ l ∈ splitNl s, pyLStrip l = l ∧ pyRStrip l = l)
    {l2 : Str} (h2 : l2 ∈ splitNl (pyStrip s)) : l2 ∈ splitNl s ∨ l2 = [] := by
  have hs : s = joinNl (splitNl s) := (joinNl_splitNl s).symm
  have hL : pyLStrip s = joinNl ((splitNl s).dropWhile (· = [])) := by
    conv_lhs => rw [hs]
    exact pyLStrip_joinNl (fun l hl => (h l hl).1)
  have hcond1 : ∀ l ∈ (splitNl s).dropWhile (· = []), pyRStrip l = l := fun l hl =>
    (h l ((List.dropWhile_suffix _).sublist.subset hl)).2
  have hR : pyStrip s = joinNl (revDropEmpty ((splitNl s).dropWhile (· = []))) := by
    unfold pyStrip
    rw [hL]
    exact pyRStrip_joinNl hcond1
  have hsub : ∀ l ∈ revDropEmpty ((splitNl s).dropWhile (· = [])), l ∈ splitNl s :=
    fun l hl => (List.dropWhile_suffix _).sublist.subset (mem_revDropEmpty hl)
  rw [hR] at h2
  by_cases hnil : revDropEmpty ((splitNl s).dropWhile (· = [])) = []
  · rw [hnil, joinNl_nil] at h2
    rw [show splitNl [] = [[]] from rfl, List.mem_singleton] at h2
    exact Or.inr h2
  · rw [splitNl_joinNl (fun l hl => nl_not_mem_splitNl (hsub l hl)) hnil] at h2
    exact Or.inl (hsub l2 h2)

/-- `"\n\n".join(bs)`, the block stitching of `extract_clean_text`. -/
def joinBlocks (bs : List Str) : Str := List.intercalate ['\n', '\n'] bs

theorem joinBlocks_cons (b : Str) {bs : List Str} (h : bs ≠ []) :
    joinBlocks (b :: bs) = b ++ '\n' :: '\n' :: joinBlocks bs := by
  cases bs with
  | nil => exact absurd rfl h
  | cons c cs => simp [joinBlocks, List.intercalate, List.intersperse]

theorem mem_splitNl_joinBlocks {bs : List Str} {l : Str}
    (h : l ∈ splitNl (joinBlocks bs)) : l = [] ∨ ∃ b ∈ bs, l ∈ splitNl b := by
  induction bs generalizing l with
  | nil =>
    rw [show joinBlocks [] = [] from rfl, show splitNl [] = [[]] from rfl,
      List.mem_singleton] at h
    exact Or.inl h
  | cons b bs ih =>
    cases bs with
    | nil =>
      rw [show joinBlocks [b] = b from by simp [joinBlocks, List.intercalate]] at h
      exact Or.inr ⟨b, List.mem_singleton.mpr rfl, h⟩
    | cons c cs =>
      rw [joinBlocks_cons _ (by simp), splitNl_append_nl, List.mem_append] at h
      rcases h with h | h
      · exact Or.inr ⟨b, List.mem_cons_self _ _, h⟩
      · rw [splitNl_cons_nl, List.mem_cons] at h
        rcases h with h | h
        · exact Or.inl h
        · rcases ih h with h | ⟨b2, hb2, hl2⟩
          · exact Or.inl h
          · exact Or.inr ⟨b2, List.mem_cons_of_mem _ hb2, hl2⟩

theorem dropWhile_fixed_head {p : Char → Bool} {z : Str} (h : z.dropWhile p = z)
    {c : Char} {t : Str} (hz : z = c :: t) : p c = false := by
  subst hz
  by_contra hc
  rw [Bool.not_eq_false] at hc
  rw [List.dropWhile_cons, if_pos hc] at h
  have := congrArg List.length h
  have h2 : (t.dropWhile p).length ≤ t.length := (List.dropWhile_suffix _).length_le
  simp at this
  omega

theorem isPyWs_of_isSpTab {c : Char} (h : isSpTab c = true) : isPyWs c = true := by
  unfold isSpTab at h
  simp only [Bool.or_eq_true, decide_eq_true_eq] at h
  rcases h with h | h <;> subst h <;> decide

/-- A string whose whitespace-strip is a fixed point is also fixed under
space/tab stripping. -/
theorem dropWhile_spTab_of_pyWs_fixed {z : Str} (h : z.dropWhile isPyWs = z) :
    z.dropWhile isSpTab = z := by
  cases hz : z with
  | nil => simp
  | cons c t =>
    have hc : isPyWs c = false := dropWhile_fixed_head (hz ▸ h) rfl
    have hc2 : isSpTab c = false := by
      by_contra hcc
      rw [Bool.not_eq_false] at hcc
      have h3 := isPyWs_of_isSpTab hcc
      rw [hc] at h3
      exact Bool.false_ne_true h3
    rw [List.dropWhile_cons, if_neg (by simp [hc2])]

theorem mem_replaceNbsp {line : Str} {c : Char} (h : c ∈ replaceNbsp line) :
    c = ' ' ∨ (c ∈ line ∧ c ≠ '\u00A0') := by
  unfold replaceNbsp at h
  rw [List.mem_map] at h
  rcases h with ⟨d, hd, hdc⟩
  by_cases hdn : d = '\u00A0'
  · rw [if_pos hdn] at hdc
    exact Or.inl hdc.symm
  · rw [if_neg hdn] at hdc
    exact Or.inr ⟨hdc ▸ hd, hdc ▸ hdn⟩

theorem replaceCrNl_crlf (rest : Str) :
    replaceCrNl ('\r' :: '\n' :: rest) = '\n' :: replaceCrNl rest := rfl

theorem replaceCrNl_cr {d : Char} (hd : d ≠ '\n') (rest : Str) :
    replaceCrNl ('\r' :: d :: rest) = '\n' :: replaceCrNl (d :: rest) := by
  rw [replaceCrNl.eq_def]
  simp [hd]

theorem replaceCrNl_ne {c : Char} (hc : c ≠ '\r') (rest : Str) :
    replaceCrNl (c :: rest) = c :: replaceCrNl rest := by
  rw [replaceCrNl.eq_def]
  simp [hc]

theorem mem_replaceCrNl {t : Str} {c : Char} (h : c ∈ replaceCrNl t) :
    c = '\n' ∨ (c ∈ t ∧ c ≠ '\r') := by
  induction t using replaceCrNl.induct with
  | case1 => simp [replaceCrNl] at h
  | case2 =>
    rw [show replaceCrNl ['\r'] = ['\n'] from rfl, List.mem_singleton] at h
    exact Or.inl h
  | case3 rest2 ih =>
    rw [replaceCrNl_crlf, List.mem_cons] at h
    rcases h with h | h
    · exact Or.inl h
    · rcases ih h with h | ⟨h1, h2⟩
      · exact Or.inl h
      · exact Or.inr ⟨by simp [h1], h2⟩
  | case4 d rest2 hd ih =>
    rw [replaceCrNl_cr hd, List.mem_cons] at h
    rcases h with h | h
    · exact Or.inl h
    · rcases ih h with h | ⟨h1, h2⟩
      · exact Or.inl h
      · exact Or.inr ⟨List.mem_cons_of_mem _ h1, h2⟩
  | case5 c2 rest hc ih =>
    rw [replaceCrNl_ne hc, List.mem_cons] at h
    rcases h with h | h
    · exact Or.inr ⟨h ▸ List.mem_cons_self _ _, h ▸ hc⟩
    · rcases ih h with h | ⟨h1, h2⟩
      · exact Or.inl h
      · exact Or.inr ⟨List.mem_cons_of_mem _ h1, h2⟩

theorem cr_not_mem_replaceCrNl (t : Str) : '\r' ∉ replaceCrNl t := by
  intro h
  rcases mem_replaceCrNl h with h | ⟨_, h2⟩
  · exact absurd h (by decide)
  · exact h2 rfl

theorem replaceCrNl_eq_self {t : Str} (h : '\r' ∉ t) : replaceCrNl t = t := by
  induction t using replaceCrNl.induct with
  | case1 => rfl
  | case2 => exact absurd (List.mem_singleton.mpr rfl) h
  | case3 rest2 ih => exact absurd (List.mem_cons_self _ _) h
  | case4 d rest2 hd ih => exact absurd (List.mem_cons_self _ _) h
  | case5 c2 rest hc ih =>
    rw [replaceCrNl_ne hc, ih (fun hm => h (List.mem_cons_of_mem _ hm))]

theorem replaceCrNlSpace_crlf (rest : Str) :
    replaceCrNlSpace ('\r' :: '\n' :: rest) = ' ' :: replaceCrNlSpace rest := rfl

theorem replaceCrNlSpace_cr {d : Char} (hd : d ≠ '\n') (rest : Str) :
    replaceCrNlSpace ('\r' :: d :: rest) = ' ' :: replaceCrNlSpace (d :: rest) := by
  rw [replaceCrNlSpace.eq_def]
  simp [hd]

theorem replaceCrNlSpace_nl (rest : Str) :
    replaceCrNlSpace ('\n' :: rest) = ' ' :: replaceCrNlSpace rest := by
  rw [replaceCrNlSpace.eq_def]
  simp

theorem replaceCrNlSpace_ne {c : Char} (hc : c ≠ '\r') (hc2 : c ≠ '\n') (rest : Str) :
    replaceCrNlSpace (c :: rest) = c :: replaceCrNlSpace rest := by
  rw [replaceCrNlSpace.eq_def]
  simp [hc, hc2]

theorem mem_replaceCrNlSpace {t : Str} {c : Char} (h : c ∈ replaceCrNlSpace t) :
    c = ' ' ∨ (c ∈ t ∧ c ≠ '\r' ∧ c ≠ '\n') := by
  induction t using replaceCrNlSpace.induct with
  | case1 => simp [replaceCrNlSpace] at h
  | case2 =>
    rw [show replaceCrNlSpace ['\r'] = [' '] from rfl, List.mem_singleton] at h
    exact Or.inl h
  | case3 rest2 ih =>
    rw [replaceCrNlSpace_crlf, List.mem_cons] at h
    rcases h with h | h
    · exact Or.inl h
    · rcases ih h with h | ⟨h1, h2⟩
      · exact Or.inl h
      · exact Or.inr ⟨by simp [h1], h2⟩
  | case4 d rest2 hd ih =>
    rw [replaceCrNlSpace_cr hd, List.mem_cons] at h
    rcases h with h | h
    · exact Or.inl h
    · rcases ih h with h | ⟨h1, h2⟩
      · exact Or.inl h
      · exact Or.inr ⟨List.mem_cons_of_mem _ h1, h2⟩
  | case5 rest hc ih =>
    rw [replaceCrNlSpace_nl, List.mem_cons] at h
    rcases h with h | h
    · exact Or.inl h
    · rcases ih h with h | ⟨h1, h2⟩
      · exact Or.inl h
      · exact Or.inr ⟨List.mem_cons_of_mem _ h1, h2⟩
  | case6 c2 rest hc hc2 ih =>
    rw [replaceCrNlSpace_ne hc hc2, List.mem_cons] at h
    rcases h with h | h
    · exact Or.inr ⟨h ▸ List.mem_cons_self _ _, h ▸ hc, h ▸ hc2⟩
    · rcases ih h with h | ⟨h1, h2⟩
      · exact Or.inl h
      · exact Or.inr ⟨List.mem_cons_of_mem _ h1, h2⟩

theorem mem_collapseTabRuns {s : Str} {c : Char} (h : c ∈ collapseTabRuns s) :
    c = ' ' ∨ (c ∈ s ∧ isTabFfVt c = false) := by
  induction s using collapseTabRuns.induct with
  | case1 => simp [collapseTabRuns] at h
  | case2 c2 rest hc ih =>
    rw [show collapseTabRuns (c2 :: rest) = ' ' ::
        collapseTabRuns (rest.dropWhile isTabFfVt) from by
      rw [collapseTabRuns]; simp [hc]] at h
    rw [List.mem_cons] at h
    rcases h with h | h
    · exact Or.inl h
    · rcases ih h with h | ⟨h1, h2⟩
      · exact Or.inl h
      · exact Or.inr ⟨List.mem_cons_of_mem _ ((List.dropWhile_suffix _).sublist.subset h1), h2⟩
  | case3 c2 rest hc ih =>
    rw [show collapseTabRuns (c2 :: rest) = c2 :: collapseTabRuns rest from by
      rw [collapseTabRuns]; simp [hc]] at h
    rw [List.mem_cons] at h
    rcases h with h | h
    · subst h
      exact Or.inr ⟨List.mem_cons_self _ _, by simpa using hc⟩
    · rcases ih h with h | ⟨h1, h2⟩
      · exact Or.inl h
      · exact Or.inr ⟨List.mem_cons_of_mem _ h1, h2⟩

theorem mem_collapseSpaceRuns {s : Str} {c : Char} (h : c ∈ collapseSpaceRuns s) :
    c = ' ' ∨ c ∈ s := by
  induction s using collapseSpaceRuns.induct with
  | case1 => simp [collapseSpaceRuns] at h
  | case2 rest ih =>
    rw [show collapseSpaceRuns (' ' :: rest) = ' ' ::
        collapseSpaceRuns (rest.dropWhile (· = ' ')) from by
      rw [collapseSpaceRuns]; simp] at h
    rw [List.mem_cons] at h
    rcases h with h | h
    · exact Or.inl h
    · rcases ih h with h | h
      · exact Or.inl h
      · exact Or.inr (List.mem_cons_of_mem _ ((List.dropWhile_suffix _).sublist.subset h))
  | case3 c2 rest hc ih =>
    rw [show collapseSpaceRuns (c2 :: rest) = c2 :: collapseSpaceRuns rest from by
      rw [collapseSpaceRuns]; simp [hc]] at h
    rw [List.mem_cons] at h
    rcases h with h | h
    · exact Or.inr (h ▸ List.mem_cons_self _ _)
    · rcases ih h with h | h
      · exact Or.inl h
      · exact Or.inr (List.mem_cons_of_mem _ h)

/-- The newline-collapsing normalizer never emits a newline. -/
theorem no_nl_normalizeSingleline (s : Str) : '\n' ∉ normalizeSpacesSingleline s := by
  unfold normalizeSpacesSingleline
  by_cases hs : s = []
  · simp [hs]
  · rw [if_neg hs]
    intro h
    have h1 := mem_pyStrip h
    rcases mem_collapseSpaceRuns h1 with h2 | h2
    · exact absurd h2 (by decide)
    · rcases mem_collapseTabRuns h2 with h3 | ⟨h3, _⟩
      · exact absurd h3 (by decide)
      · rcases mem_replaceCrNlSpace h3 with h4 | ⟨_, _, h4⟩
        · exact absurd h4 (by decide)
        · exact h4 rfl

/-! ## `clean_text` produces and preserves a normal form (C2, C10) -/

theorem pyRStrip_ne_of_suffix_nl {k : Nat} {s : Str} (hk : 1 ≤ k)
    (h : List.replicate k '\n' <:+ s) : pyRStrip s ≠ s := by
  rcases h with ⟨u, hu⟩
  intro hc
  have hrev : s.reverse = List.replicate k '\n' ++ u.reverse := by
    rw [← hu, List.reverse_append, List.reverse_replicate]
  have hdrop : s.reverse.dropWhile isPyWs = u.reverse.dropWhile isPyWs := by
    rw [hrev, List.dropWhile_append_of_pos]
    intro a ha
    rw [List.eq_of_mem_replicate ha]
    decide
  have hlen1 : (pyRStrip s).length ≤ u.length := by
    unfold pyRStrip
    rw [hdrop]
    have := (List.dropWhile_suffix (l := u.reverse) isPyWs).length_le
    simpa using this
  have hlen2 : s.length = u.length + k := by
    rw [← hu]
    simp
  rw [hc] at hlen1
  omega

theorem noNlRun_append_nl {m : Nat} (hm : 2 ≤ m) {s : Str} (h : noNlRun m s)
    (hr : pyRStrip s = s) : noNlRun m (s ++ ['\n']) := by
  intro hinf
  rw [List.infix_concat_iff] at hinf
  rcases hinf with hsuf | hinf
  · rw [List.suffix_concat_iff] at hsuf
    rcases hsuf with hnil | ⟨t, ht, hts⟩
    · have := congrArg List.length hnil
      simp at this
      omega
    · have hlen : t.length = m - 1 := by
        have := congrArg List.length ht
        simp at this
        omega
      have hmem : ∀ b ∈ t, b = '\n' := by
        intro b hb
        have hb2 : b ∈ List.replicate m '\n' := by
          rw [ht]; exact List.mem_append_left _ hb
        exact List.eq_of_mem_replicate hb2
      have ht2 : t = List.replicate (m - 1) '\n' := by
        rw [List.eq_replicate_of_mem hmem, hlen]
      exact pyRStrip_ne_of_suffix_nl (k := m - 1) (by omega) (ht2 ▸ hts) hr
  · exact h hinf

theorem mem_joinNl_of_mem {ls : List Str} {l : Str} {c : Char} (hl : l ∈ ls) (hc : c ∈ l) :
    c ∈ joinNl ls := by
  induction ls with
  | nil => simp at hl
  | cons x ls ih =>
    rcases List.mem_cons.mp hl with h | h
    · subst h
      cases ls with
      | nil => rwa [joinNl_singleton]
      | cons b bs =>
        rw [joinNl_cons _ (by simp)]
        exact List.mem_append_left _ hc
    · cases ls with
      | nil => simp at h
      | cons b bs =>
        rw [joinNl_cons _ (by simp)]
        refine List.mem_append_right _ ?_
        exact List.mem_cons_of_mem _ (ih h)

theorem mem_of_mem_splitNl {s l : Str} {c : Char} (hl : l ∈ splitNl s) (hc : c ∈ l) :
    c ∈ s := by
  have := mem_joinNl_of_mem hl hc
  rwa [joinNl_splitNl] at this

theorem mem_squashNlRuns {r : Nat} {s : Str} {c : Char} (h : c ∈ squashNlRuns r s) :
    c = '\n' ∨ c ∈ s := by
  induction s using squashNlRuns.induct r with
  | case1 => rw [squashNlRuns] at h; simp at h
  | case2 rest ih =>
    rw [squash_cons_nl, List.mem_append] at h
    rcases h with h | h
    · exact Or.inl (List.eq_of_mem_replicate h)
    · rcases ih h with h | h
      · exact Or.inl h
      · exact Or.inr (List.mem_cons_of_mem _ ((List.dropWhile_suffix _).sublist.subset h))
  | case3 c2 rest hc ih =>
    rw [squash_cons_ne hc, List.mem_cons] at h
    rcases h with h | h
    · exact Or.inr (h ▸ List.mem_cons_self _ _)
    · rcases ih h with h | h
      · exact Or.inl h
      · exact Or.inr (List.mem_cons_of_mem _ h)

theorem splitNl_concat_nl (x : Str) : splitNl (x ++ ['\n']) = splitNl x ++ [[]] := by
  rw [show (x ++ ['\n']) = x ++ '\n' :: [] from rfl, splitNl_append_nl]
  rfl

theorem pyStrip_concat_nl {x : Str} (h1 : pyLStrip x = x) (h2 : pyRStrip x = x) :
    pyStrip (x ++ ['\n']) = x := by
  cases x with
  | nil => decide
  | cons c t =>
    have hc : isPyWs c = false := head_not_ws_of_lstrip_fixed h1 rfl
    have hL : pyLStrip ((c :: t) ++ ['\n']) = (c :: t) ++ ['\n'] := by
      unfold pyLStrip
      rw [List.cons_append, List.dropWhile_cons, if_neg (by simp [hc])]
    unfold pyStrip
    rw [hL, pyRStrip_append]
    rw [show pyRStrip ['\n'] = [] from by decide, if_pos rfl, h2]

theorem cleanLine_some_eq {a : Bool} {line s : Str} (h : cleanLine a line = some s) :
    s = pyStrip (replaceNbsp line) := by
  simp only [cleanLine] at h
  split_ifs at h <;> simp_all

theorem cleanLine_nil (a : Bool) : cleanLine a [] = some [] := by
  cases a <;> decide

theorem cleanLine_accepts_output {a : Bool} {line s : Str} (h : cleanLine a line = some s) :
    cleanLine a s = some s := by
  have hs := cleanLine_some_eq h
  have hfix : pyStrip (replaceNbsp s) = s := by
    have hnb : ∀ c ∈ s, c ≠ ' ' := by
      intro c hc
      rw [hs] at hc
      rcases mem_replaceNbsp (mem_pyStrip hc) with h2 | ⟨_, h2⟩
      · subst h2; decide
      · exact h2
    have hrn : replaceNbsp s = s := by
      unfold replaceNbsp
      have hmap : s.map (fun c => if c = ' ' then ' ' else c) = s.map id := by
        apply List.map_congr_left
        intro c hc
        rw [if_neg (hnb c hc)]
        rfl
      rw [hmap, List.map_id]
    rw [hrn, hs, pyStrip_idem]
  simp only [cleanLine] at h ⊢
  rw [hfix]
  rw [← hs] at h
  split_ifs at h ⊢ <;> simp_all

theorem cleanLine_some_fixed {a : Bool} {line s : Str} (h : cleanLine a line = some s) :
    pyLStrip s = s ∧ pyRStrip s = s := by
  rw [cleanLine_some_eq h]
  exact ⟨pyLStrip_pyStrip _, pyRStrip_pyStrip _⟩

theorem cleanLine_some_no_nl {a : Bool} {line s : Str} (hline : '\n' ∉ line)
    (h : cleanLine a line = some s) : '\n' ∉ s := by
  rw [cleanLine_some_eq h]
  intro hmem
  rcases mem_replaceNbsp (mem_pyStrip hmem) with h2 | ⟨h2, _⟩
  · exact absurd h2 (by decide)
  · exact hline h2

theorem cleanLine_some_no_cr {a : Bool} {line s : Str} (hline : '\r' ∉ line)
    (h : cleanLine a line = some s) : '\r' ∉ s := by
  rw [cleanLine_some_eq h]
  intro hmem
  rcases mem_replaceNbsp (mem_pyStrip hmem) with h2 | ⟨h2, _⟩
  · exact absurd h2 (by decide)
  · exact hline h2

theorem filterMap_self {f : Str → Option Str} {ls : List Str}
    (h : ∀ x ∈ ls, f x = some x) : ls.filterMap f = ls := by
  induction ls with
  | nil => rfl
  | cons x ls ih =>
    rw [List.filterMap_cons, h x (List.mem_cons_self _ _),
      ih (fun y hy => h y (List.mem_cons_of_mem _ hy))]

theorem mapInit_id {α : Type} {f : α → α} {ls : List α} (h : ∀ x ∈ ls, f x = x) :
    mapInit f ls = ls := by
  induction ls with
  | nil => rfl
  | cons x ls ih =>
    cases ls with
    | nil => rfl
    | cons b bs =>
      rw [show mapInit f (x :: b :: bs) = f x :: mapInit f (b :: bs) from rfl,
        h x (List.mem_cons_self _ _), ih (fun y hy => h y (List.mem_cons_of_mem _ hy))]

theorem mapTail_id {α : Type} {f : α → α} {ls : List α} (h : ∀ x ∈ ls, f x = x) :
    mapTail f ls = ls := by
  cases ls with
  | nil => rfl
  | cons x ls =>
    rw [show mapTail f (x :: ls) = x :: ls.map f from rfl]
    have hmap : ls.map f = ls.map id :=
      List.map_congr_left (fun y hy => h y (List.mem_cons_of_mem _ hy))
    rw [hmap, List.map_id]

theorem subTrailingSpTab_eq_self {s : Str}
    (h : ∀ l ∈ splitNl s, pyRStrip l = l) : subTrailingSpTab s = s := by
  unfold subTrailingSpTab
  rw [mapInit_id ?_, joinNl_splitNl]
  intro l hl
  have h2 : l.reverse.dropWhile isPyWs = l.reverse := by
    have h3 := congrArg List.reverse (h l hl)
    unfold pyRStrip at h3
    rwa [List.reverse_reverse] at h3
  rw [dropWhile_spTab_of_pyWs_fixed h2, List.reverse_reverse]

theorem subLeadingSpTab_eq_self {s : Str}
    (h : ∀ l ∈ splitNl s, pyLStrip l = l) : subLeadingSpTab s = s := by
  unfold subLeadingSpTab
  rw [mapTail_id ?_, joinNl_splitNl]
  intro l hl
  exact dropWhile_spTab_of_pyWs_fixed (h l hl)

theorem mem_joinNl {ls : List Str} {c : Char} (h : c ∈ joinNl ls) :
    c = '\n' ∨ ∃ l ∈ ls, c ∈ l := by
  induction ls with
  | nil => simp [joinNl_nil] at h
  | cons x ls ih =>
    cases ls with
    | nil =>
      rw [joinNl_singleton] at h
      exact Or.inr ⟨x, List.mem_singleton.mpr rfl, h⟩
    | cons b bs =>
      rw [joinNl_cons _ (by simp), List.mem_append] at h
      rcases h with h | h
      · exact Or.inr ⟨x, List.mem_cons_self _ _, h⟩
      · rw [List.mem_cons] at h
        rcases h with h | h
        · exact Or.inl h
        · rcases ih h with h | ⟨l, hl, hcl⟩
          · exact Or.inl h
          · exact Or.inr ⟨l, List.mem_cons_of_mem _ hl, hcl⟩

/-- The normal form that `clean_text` both produces and preserves. -/
structure CleanNF (a : Bool) (o : Str) : Prop where
  lines_ok : ∀ l ∈ splitNl o, cleanLine a l = some l
  no_cr : '\r' ∉ o
  no_run3 : noNlRun 3 o
  strip_trailing : pyStrip o ++ ['\n'] = o

theorem cleanText_eq (t : Str) (a : Bool) :
    cleanText t a = pyStrip (squashNlRuns 2 (subLeadingSpTab (subTrailingSpTab
      (joinNl ((splitNl (replaceCrNl t)).filterMap (cleanLine a)))))) ++ ['\n'] := rfl

/-- Any `clean_text` output is in normal form. -/
theorem cleanNF_cleanText (t : Str) (a : Bool) : CleanNF a (cleanText t a) := by
  have hclean : ∀ s ∈ (splitNl (replaceCrNl t)).filterMap (cleanLine a),
      cleanLine a s = some s ∧ '\n' ∉ s ∧ '\r' ∉ s ∧ pyLStrip s = s ∧ pyRStrip s = s := by
    intro s hs
    rw [List.mem_filterMap] at hs
    rcases hs with ⟨line, hline, hcl⟩
    have hnl : '\n' ∉ line := nl_not_mem_splitNl hline
    have hcr : '\r' ∉ line := fun hmem =>
      cr_not_mem_replaceCrNl t (mem_of_mem_splitNl hline hmem)
    exact ⟨cleanLine_accepts_output hcl, cleanLine_some_no_nl hnl hcl,
      cleanLine_some_no_cr hcr hcl, (cleanLine_some_fixed hcl).1,
      (cleanLine_some_fixed hcl).2⟩
  set cleaned := (splitNl (replaceCrNl t)).filterMap (cleanLine a) with hcld
  have hout1 : ∀ l ∈ splitNl (joinNl cleaned),
      cleanLine a l = some l ∧ '\r' ∉ l ∧ pyLStrip l = l ∧ pyRStrip l = l := by
    intro l hl
    by_cases hnil : cleaned = []
    · rw [hnil, joinNl_nil, show splitNl [] = [[]] from rfl, List.mem_singleton] at hl
      subst hl
      exact ⟨cleanLine_nil a, by simp, rfl, rfl⟩
    · rw [splitNl_joinNl (fun x hx => (hclean x hx).2.1) hnil] at hl
      exact ⟨(hclean l hl).1, (hclean l hl).2.2.1, (hclean l hl).2.2.2.1,
        (hclean l hl).2.2.2.2⟩
  rw [cleanText_eq]
  rw [subTrailingSpTab_eq_self (fun l hl => (hout1 l hl).2.2.2)]
  rw [subLeadingSpTab_eq_self (fun l hl => (hout1 l hl).2.2.1)]
  set out4 := squashNlRuns 2 (joinNl cleaned) with hout4
  have hlines4 : ∀ l ∈ splitNl out4,
      cleanLine a l = some l ∧ pyLStrip l = l ∧ pyRStrip l = l := by
    intro l hl
    rcases mem_splitNl_squash (by omega) hl with hl2 | hl2
    · exact ⟨(hout1 l hl2).1, (hout1 l hl2).2.2.1, (hout1 l hl2).2.2.2⟩
    · subst hl2
      exact ⟨cleanLine_nil a, rfl, rfl⟩
  have hcr4 : '\r' ∉ out4 := by
    intro hmem
    rcases mem_squashNlRuns hmem with h2 | h2
    · exact absurd h2 (by decide)
    · rcases mem_joinNl h2 with h3 | ⟨l, hl, hcl⟩
      · exact absurd h3 (by decide)
      · exact (hclean l hl).2.2.1 hcl
  have hrun4 : noNlRun 3 out4 := squash_noNlRun 2 _
  have hxfixL : pyLStrip (pyStrip out4) = pyStrip out4 := pyLStrip_pyStrip _
  have hxfixR : pyRStrip (pyStrip out4) = pyStrip out4 := pyRStrip_pyStrip _
  refine ⟨?_, ?_, ?_, ?_⟩
  · intro l hl
    rw [splitNl_concat_nl, List.mem_append] at hl
    rcases hl with hl | hl
    · rcases mem_splitNl_pyStrip
        (fun l2 hl2 => ⟨(hlines4 l2 hl2).2.1, (hlines4 l2 hl2).2.2⟩) hl with h2 | h2
      · exact (hlines4 l h2).1
      · subst h2; exact cleanLine_nil a
    · rw [List.mem_singleton] at hl
      subst hl; exact cleanLine_nil a
  · intro hmem
    rw [List.mem_append] at hmem
    rcases hmem with h2 | h2
    · exact hcr4 (mem_pyStrip h2)
    · rw [List.mem_singleton] at h2
      exact absurd h2 (by decide)
  · exact noNlRun_append_nl (by omega)
      (noNlRun_of_sub (pyStrip_isInfix _) hrun4) hxfixR
  · exact congrArg (· ++ ['\n']) (pyStrip_concat_nl hxfixL hxfixR)

/-- `clean_text` of a normal-form string is the identity. -/
theorem cleanText_of_cleanNF {a : Bool} {o : Str} (h : CleanNF a o) : cleanText o a = o := by
  rw [cleanText_eq]
  rw [replaceCrNl_eq_self h.no_cr]
  rw [filterMap_self (fun l hl => h.lines_ok l hl)]
  rw [joinNl_splitNl]
  rw [subTrailingSpTab_eq_self (fun l hl => (cleanLine_some_fixed (h.lines_ok l hl)).2)]
  rw [subLeadingSpTab_eq_self (fun l hl => (cleanLine_some_fixed (h.lines_ok l hl)).1)]
  rw [squash_eq_self h.no_run3]
  exact h.strip_trailing

/-- C10: the fallback line-level cleaner is idempotent — for every
string `t` and every aggressive-flag value `a`,
`clean_text(clean_text(t, a), a) == clean_text(t, a)`. -/
theorem clean_text_idempotent (t : Str) (a : Bool) :
    cleanText (cleanText t a) a = cleanText t a :=
  cleanText_of_cleanNF (cleanNF_cleanText t a)

/-! ## The HTML extraction pipeline (`extract_clean_text`, §4.2–§4.4)

The parsed HTML document is modelled as a tree of element and text
nodes (`BeautifulSoup`'s `Tag` and `NavigableString`); the HTML parser
itself is outside the model, so `extract_clean_text` is embedded from
the point where the soup exists.  `html_lib.unescape` is modelled on
the named and numeric entities `&amp;`, `&lt;`, `&gt;`, `&quot;`,
`&apos;`, `&nbsp;` and `&#39;`; other entities are out of scope (the
benign-input hypotheses used below exclude `&` altogether). -/

/-- One entity match of `html_lib.unescape` at the head of the string
that follows a `&`: the replacement character and the number of
characters consumed. -/
def entityStep (s : Str) : Option (Char × Nat) :=
  if List.isPrefixOf "amp;".data s then some ('&', 4)
  else if List.isPrefixOf "lt;".data s then some ('<', 3)
  else if List.isPrefixOf "gt;".data s then some ('>', 3)
  else if List.isPrefixOf "quot;".data s then some ('"', 5)
  else if List.isPrefixOf "apos;".data s then some (Char.ofNat 39, 5)
  else if List.isPrefixOf "nbsp;".data s then some (' ', 5)
  else if List.isPrefixOf "#39;".data s then some (Char.ofNat 39, 4)
  else none

/-- `html_lib.unescape` (restricted to the entities of `entityStep`):
each recognised entity becomes its character, an unrecognised `&` is
kept literally. -/
def unescapeHtml : Str → Str
  | [] => []
  | c :: rest =>
    if c = '&' then
      match entityStep rest with
      | some (d, k) => d :: unescapeHtml (rest.drop k)
      | none => '&' :: unescapeHtml rest
    else c :: unescapeHtml rest
  termination_by s => s.length
  decreasing_by
  · exact Nat.lt_succ_of_le (List.length_drop _ _ ▸ Nat.sub_le _ _)
  · exact Nat.lt_succ_self _
  · exact Nat.lt_succ_self _

/-- A parsed HTML node: a text node (`NavigableString`) or an element
(`Tag`) with a name, attributes and children.  The `class` attribute
holds its whitespace-separated token list as one string. -/
inductive Node where
  | text (s : Str)
  | elem (name : Str) (attrs : List (Str × Str)) (children : List Node)

/-- `tag.name` (the empty string on a text node, which has none). -/
def Node.nameOf : Node → Str
  | .text _ => []
  | .elem nm _ _ => nm

/-- `isinstance(node, Tag)`. -/
def Node.isElem : Node → Bool
  | .text _ => false
  | .elem _ _ _ => true

/-- The direct children of a node. -/
def Node.childrenOf : Node → List Node
  | .text _ => []
  | .elem _ _ cs => cs

/-- `tag.get(key)`: the value of an attribute, when present. -/
def Node.attrOf (key : Str) : Node → Option Str
  | .text _ => none
  | .elem _ ats _ => (ats.find? (fun kv => decide (kv.1 = key))).map (fun kv => kv.2)

mutual
/-- `tag.descendants`: every node strictly below this one, in document
(pre-)order.  `find_all` and `select` search this list. -/
def Node.descendants : Node → List Node
  | .text _ => []
  | .elem _ _ cs => descendantsList cs
/-- The nodes of a forest in document order, each followed by its
descendants. -/
def descendantsList : List Node → List Node
  | [] => []
  | n :: ns => n :: (Node.descendants n ++ descendantsList ns)
end

mutual
/-- The text-node strings below a node, in document order (the
strings `get_text` joins). -/
def Node.strings : Node → List Str
  | .text s => [s]
  | .elem _ _ cs => stringsList cs
/-- The text-node strings of a forest in document order. -/
def stringsList : List Node → List Str
  | [] => []
  | n :: ns => Node.strings n ++ stringsList ns
end

/-- `node.get_text(sep, strip)`: join the descendant strings with the
separator; with `strip=True` each string is stripped first and empty
results are skipped. -/
def getText (sep : Str) (strip : Bool) (n : Node) : Str :=
  if strip then
    List.intercalate sep (((Node.strings n).map pyStrip).filter (fun s => decide (s ≠ [])))
  else List.intercalate sep (Node.strings n)

mutual
/-- `decompose()` of every node matching `p` anywhere in the tree (the
`for bad in soup.select(...): bad.decompose()` loops). -/
def removeNodes (p : Node → Bool) : Node → Node
  | .text s => .text s
  | .elem nm ats cs => .elem nm ats (removeNodesList p cs)
/-- `removeNodes` over a forest: matching roots are dropped, the rest
are cleaned recursively. -/
def removeNodesList (p : Node → Bool) : List Node → List Node
  | [] => []
  | n :: ns => if p n then removeNodesList p ns else removeNodes p n :: removeNodesList p ns
end

/-- The selector `script, style, nav, header, footer` of
`remove_non_content`. -/
def isScriptStyleNav (n : Node) : Bool :=
  n.isElem && decide (n.nameOf ∈
    (["script".data, "style".data, "nav".data, "header".data, "footer".data] : List Str))

/-- The selector `div#pg-header, div#pg-footer` of
`remove_non_content`. -/
def isPgHeaderFooter (n : Node) : Bool :=
  n.isElem && decide (n.nameOf = "div".data) &&
    (decide (n.attrOf "id".data = some "pg-header".data) ||
     decide (n.attrOf "id".data = some "pg-footer".data))

/-- The selector `img, svg, figure` of `remove_non_content`. -/
def isImageLike (n : Node) : Bool :=
  n.isElem && decide (n.nameOf ∈ (["img".data, "svg".data, "figure".data] : List Str))

/-- `remove_non_content` of `kdpsimplescraper.py`: its three
`decompose` passes in order. -/
def removeNonContent (soup : Node) : Node :=
  removeNodes isImageLike (removeNodes isPgHeaderFooter (removeNodes isScriptStyleNav soup))

/-- Helper of `pySplitWs`: `cur` holds the reversed current word. -/
def pySplitWsGo (cur : Str) : Str → List Str
  | [] => if cur = [] then [] else [cur.reverse]
  | c :: rest =>
    if isPyWs c then
      if cur = [] then pySplitWsGo [] rest else cur.reverse :: pySplitWsGo [] rest
    else pySplitWsGo (c :: cur) rest

/-- `s.split()` with no argument: split on whitespace runs, no empty
parts.  `BeautifulSoup` splits the `class` attribute this way. -/
def pySplitWs (s : Str) : List Str := pySplitWsGo [] s

/-- `tag.get("class", [])`: the class token list of a node. -/
def classesOf (n : Node) : List Str :=
  match n.attrOf "class".data with
  | some v => pySplitWs v
  | none => []

/-- `POETRY_CLASS_HINTS`. -/
def poetryClassHints : List Str := ["poetry".data, "verse".data, "stanza".data, "poem".data]

/-- `looks_like_poetry_block` of `kdpsimplescraper.py`: a hint occurs
as a substring of the lowered, space-joined class string (the second
`if` of the source repeats the `poetry` case for `div`/`p`). -/
def looksLikePoetryBlock (n : Node) : Bool :=
  let cls := lowerStr (List.intercalate [' '] (classesOf n))
  poetryClassHints.any (fun h => isSubstr h cls) ||
  (decide (n.nameOf ∈ (["div".data, "p".data] : List Str)) && isSubstr "poetry".data cls)

/-- The ten selectors of `select_main_container`, decoded: tag name,
`true` for an `#id` selector / `false` for a `.class` selector, and
the id or class value. -/
def mainSelectors : List (Str × Bool × Str) :=
  [("div".data, true, "body".data), ("div".data, true, "main".data),
   ("div".data, true, "content".data), ("div".data, true, "pg-body".data),
   ("div".data, true, "book".data), ("div".data, false, "book".data),
   ("div".data, true, "text".data), ("div".data, false, "text".data),
   ("div".data, true, "chapter".data), ("div".data, false, "chapter".data)]

/-- CSS match of one decoded selector against a node: `tag#id` wants
that exact `id` attribute, `tag.class` wants the class token. -/
def selMatches (sel : Str × Bool × Str) (n : Node) : Bool :=
  n.isElem && decide (n.nameOf = sel.1) &&
    (if sel.2.1 then decide (n.attrOf "id".data = some sel.2.2)
     else decide (sel.2.2 ∈ classesOf n))

/-- `soup.select_one(sel)`: the first matching node in document
order. -/
def selectOne (sel : Str × Bool × Str) (root : Node) : Option Node :=
  (Node.descendants root).find? (selMatches sel)

/-- `select_main_container` of `kdpsimplescraper.py`: the first
selector whose match holds over 1000 characters of stripped text wins,
else the first `body` tag, else the soup itself. -/
def selectMainContainer (root : Node) : Node :=
  match mainSelectors.findSome? (fun sel =>
    match selectOne sel root with
    | some t => if 1000 < (getText [] true t).length then some t else none
    | none => none) with
  | some t => t
  | none =>
    match (Node.descendants root).find?
        (fun m => m.isElem && decide (m.nameOf = "body".data)) with
    | some b => b
    | none => root

/-- `BLOCK_TAGS`. -/
def blockTags : List Str :=
  ["h1".data, "h2".data, "h3".data, "h4".data, "h5".data, "p".data, "pre".data,
   "blockquote".data, "ul".data, "ol".data, "hr".data, "div".data]

/-- The heading names `{"h1","h2","h3","h4","h5"}` of `handle`. -/
def headingNames : List Str := ["h1".data, "h2".data, "h3".data, "h4".data, "h5".data]

/-- The names `handle` looks for as direct children of a `div` before
flattening it (`tag.find([...], recursive=False)`). -/
def nestedBlockNames : List Str :=
  ["p".data, "h1".data, "h2".data, "h3".data, "h4".data, "h5".data, "pre".data,
   "ul".data, "ol".data, "blockquote".data]

/-- `container.find_all(names)`: the matching element descendants in
document order. -/
def findAllTags (names : List Str) (n : Node) : List Node :=
  (Node.descendants n).filter (fun m => m.isElem && decide (m.nameOf ∈ names))

/-- `is_noise_line` of `kdpsimplescraper.py` (deliberately always
`False` in the source, empty or not). -/
def isNoiseLine (line : Str) : Bool :=
  let t := pyStrip line
  if t = [] then false else false

/-- `str.upper()` on the ASCII letters (the inputs of the claims);
other code points are fixed. -/
def upperChar (c : Char) : Char :=
  if 'a' ≤ c ∧ c ≤ 'z' then Char.ofNat (c.toNat - 32) else c

/-- `txt.upper()` (ASCII, see `upperChar`). -/
def upperStr (s : Str) : Str := s.map upperChar

/-- `ExtractOptions` of `kdpsimplescraper.py`. -/
structure ExtractOptions where
  keep_br_as_newline : Bool
  preserve_preformatted : Bool
  preserve_poetry : Bool
  keep_footnotes : Bool

/-- The dataclass defaults (every flag `True`). -/
def defaultOptions : ExtractOptions := ⟨true, true, true, true⟩

/-- The two `while lines and not lines[...]` loops of `add_block`:
trim empty lines at both ends. -/
def dropOuterEmptyLines (ls : List Str) : List Str :=
  ((ls.dropWhile (· = [])).reverse.dropWhile (· = [])).reverse

/-- `add_block` of `extract_clean_text`, returning the block it would
append (`none` when it returns without appending). -/
def addBlock (textIn : Str) (preserveNewlines : Bool) : Option Str :=
  if textIn = [] then none
  else
    let t := repairMojibake (unescapeHtml textIn)
    if preserveNewlines then
      let lines2 := dropOuterEmptyLines ((splitNl (normalizeSpacesKeepNewlines t)).map stripLine)
      if lines2 = [] then none
      else
        let lines3 := lines2.filter (fun ln => !isNoiseLine ln)
        if lines3 = [] then none else some (joinNl lines3)
    else
      let block := normalizeSpacesSingleline t
      if block = [] then none else some block

/-- `handle` of `extract_clean_text`, returning the blocks the call
appends (in order): headings, `hr` (an empty block), lists, `pre`,
`blockquote`, poetry and paragraph-ish tags, in the source's branch
order. -/
def handle (opt : ExtractOptions) (tag : Node) : List Str :=
  let name := lowerStr tag.nameOf
  if name ∈ headingNames then
    let txt := getText [' '] true tag
    if txt = [] then []
    else (addBlock (if txt.length ≤ 80 then upperStr txt else txt) false).toList
  else if name = "hr".data then [[]]
  else if name = "ul".data ∨ name = "ol".data then
    let items := (tag.childrenOf.filter
        (fun li => li.isElem && decide (li.nameOf = "li".data))).filterMap
      (fun li =>
        let it := getText [' '] true li
        if it = [] then none else some ('-' :: ' ' :: it))
    if items = [] then [] else (addBlock (joinNl items) true).toList
  else if name = "pre".data ∧ opt.preserve_preformatted then
    (addBlock (squashNlRuns 2 (replaceCrNl (getText ['\n'] false tag))) true).toList
  else if name = "blockquote".data then
    (addBlock (squashNlRuns 2 (replaceCrNl (getText ['\n'] false tag))) true).toList
  else if opt.preserve_poetry ∧ looksLikePoetryBlock tag then
    (addBlock (squashNlRuns 2 (replaceCrNl (getText ['\n'] false tag))) true).toList
  else if name = "p".data ∨ name = "div".data then
    if name = "div".data ∧
        (tag.childrenOf.any (fun c => c.isElem && decide (c.nameOf ∈ nestedBlockNames))) then []
    else
      let brCount := (findAllTags ["br".data] tag).length
      if opt.keep_br_as_newline ∧ 0 < brCount then
        (addBlock (getText ['\n'] false tag) true).toList
      else
        (addBlock (getText [' '] false tag) false).toList
  else []

/-- `extract_clean_text` of `kdpsimplescraper.py`, from the parsed
soup on: remove non-content, pick the main container, handle every
block tag in document order, stitch the blocks with blank lines,
collapse runs of 4+ newlines to 3, strip trailing whitespace per line,
and return the stripped text plus one final newline. -/
def extractCleanText (opt : ExtractOptions) (soup : Node) : Str :=
  let cleaned := removeNonContent soup
  let container := selectMainContainer cleaned
  let blocks := (findAllTags blockTags container).flatMap (handle opt)
  let out1 := joinBlocks blocks
  let out2 := squashNlRuns 3 out1
  let out3 := joinNl ((splitNl out2).map pyRStrip)
  pyStrip out3 ++ ['\n']

/-- A minimal document around a body: `[document] > html > body`. -/
def docWrap (body : List Node) : Node :=
  .elem "[document]".data [] [.elem "html".data [] [.elem "body".data [] body]]

/-! ## Structural evaluators

The run-collapsing functions above recurse through `dropWhile` and are
defined by well-founded recursion, which the kernel cannot unfold on
concrete inputs.  Each gets a fuel-indexed structural twin, proved
equal when the fuel covers the length, so that concrete runs of the
pipeline can be settled by `decide`. -/

/-- Fuel-indexed twin of `unescapeHtml`. -/
def unescapeHtmlF : Nat → Str → Str
  | 0, _ => []
  | _ + 1, [] => []
  | fuel + 1, c :: rest =>
    if c = '&' then
      match entityStep rest with
      | some (d, k) => d :: unescapeHtmlF fuel (rest.drop k)
      | none => '&' :: unescapeHtmlF fuel rest
    else c :: unescapeHtmlF fuel rest

theorem unescapeHtmlF_eq (s : Str) :
    ∀ n, s.length ≤ n → unescapeHtmlF n s = unescapeHtml s := by
  induction s using unescapeHtml.induct with
  | case1 =>
    intro n hn
    cases n <;> rw [unescapeHtml] <;> rfl
  | case2 rest d k hek ih =>
    intro n hn
    cases n with
    | zero => simp at hn
    | succ m =>
      rw [unescapeHtmlF, unescapeHtml, if_pos rfl, if_pos rfl, hek]
      exact congrArg (fun t => d :: t)
        (ih _ (Nat.le_trans (List.length_drop _ _ ▸ Nat.sub_le _ _) (Nat.succ_le_succ_iff.mp hn)))
  | case3 rest hek ih =>
    intro n hn
    cases n with
    | zero => simp at hn
    | succ m =>
      rw [unescapeHtmlF, unescapeHtml, if_pos rfl, if_pos rfl, hek]
      exact congrArg (fun t => '&' :: t) (ih _ (Nat.succ_le_succ_iff.mp hn))
  | case4 c rest hc ih =>
    intro n hn
    cases n with
    | zero => simp at hn
    | succ m =>
      rw [unescapeHtmlF, unescapeHtml, if_neg hc, if_neg hc, ih _ (Nat.succ_le_succ_iff.mp hn)]

/-- `unescapeHtml` through its structural twin. -/
def unescapeHtmlE (s : Str) : Str := unescapeHtmlF s.length s

theorem unescapeHtml_eval (s : Str) : unescapeHtml s = unescapeHtmlE s :=
  (unescapeHtmlF_eq s s.length (Nat.le_refl _)).symm

/-- Fuel-indexed twin of `collapseTabRuns`. -/
def collapseTabRunsF : Nat → Str → Str
  | 0, _ => []
  | _ + 1, [] => []
  | fuel + 1, c :: rest =>
    if isTabFfVt c then ' ' :: collapseTabRunsF fuel (rest.dropWhile isTabFfVt)
    else c :: collapseTabRunsF fuel rest

theorem collapseTabRunsF_eq (s : Str) :
    ∀ n, s.length ≤ n → collapseTabRunsF n s = collapseTabRuns s := by
  induction s using collapseTabRuns.induct with
  | case1 =>
    intro n hn
    cases n <;> rw [collapseTabRuns] <;> rfl
  | case2 c rest hc ih =>
    intro n hn
    cases n with
    | zero => simp at hn
    | succ m =>
      rw [collapseTabRunsF, collapseTabRuns, if_pos hc, if_pos hc,
        ih _ (Nat.le_trans (List.dropWhile_suffix _).length_le (Nat.succ_le_succ_iff.mp hn))]
  | case3 c rest hc ih =>
    intro n hn
    cases n with
    | zero => simp at hn
    | succ m =>
      rw [collapseTabRunsF, collapseTabRuns, if_neg hc, if_neg hc,
        ih _ (Nat.succ_le_succ_iff.mp hn)]

/-- `collapseTabRuns` through its structural twin. -/
def collapseTabRunsE (s : Str) : Str := collapseTabRunsF s.length s

theorem collapseTabRuns_eval (s : Str) : collapseTabRuns s = collapseTabRunsE s :=
  (collapseTabRunsF_eq s s.length (Nat.le_refl _)).symm

/-- Fuel-indexed twin of `collapseSpaceRuns`. -/
def collapseSpaceRunsF : Nat → Str → Str
  | 0, _ => []
  | _ + 1, [] => []
  | fuel + 1, c :: rest =>
    if c = ' ' then ' ' :: collapseSpaceRunsF fuel (rest.dropWhile (· = ' '))
    else c :: collapseSpaceRunsF fuel rest

theorem collapseSpaceRunsF_eq (s : Str) :
    ∀ n, s.length ≤ n → collapseSpaceRunsF n s = collapseSpaceRuns s := by
  induction s using collapseSpaceRuns.induct with
  | case1 =>
    intro n hn
    cases n <;> rw [collapseSpaceRuns] <;> rfl
  | case2 rest ih =>
    intro n hn
    cases n with
    | zero => simp at hn
    | succ m =>
      rw [collapseSpaceRunsF, collapseSpaceRuns, if_pos rfl, if_pos rfl,
        ih _ (Nat.le_trans (List.dropWhile_suffix _).length_le (Nat.succ_le_succ_iff.mp hn))]
  | case3 c rest hc ih =>
    intro n hn
    cases n with
    | zero => simp at hn
    | succ m =>
      rw [collapseSpaceRunsF, collapseSpaceRuns, if_neg hc, if_neg hc,
        ih _ (Nat.succ_le_succ_iff.mp hn)]

/-- `collapseSpaceRuns` through its structural twin. -/
def collapseSpaceRunsE (s : Str) : Str := collapseSpaceRunsF s.length s

theorem collapseSpaceRuns_eval (s : Str) : collapseSpaceRuns s = collapseSpaceRunsE s :=
  (collapseSpaceRunsF_eq s s.length (Nat.le_refl _)).symm

/-- Fuel-indexed twin of `squashNlRuns`. -/
def squashNlRunsF (r : Nat) : Nat → Str → Str
  | 0, _ => []
  | _ + 1, [] => []
  | fuel + 1, c :: rest =>
    if c = '\n' then
      List.replicate
        (if r + 1 ≤ 1 + (rest.takeWhile (· = '\n')).length then r
         else 1 + (rest.takeWhile (· = '\n')).length) '\n' ++
        squashNlRunsF r fuel (rest.dropWhile (· = '\n'))
    else c :: squashNlRunsF r fuel rest

theorem squashNlRunsF_eq (r : Nat) (s : Str) :
    ∀ n, s.length ≤ n → squashNlRunsF r n s = squashNlRuns r s := by
  induction s using squashNlRuns.induct r with
  | case1 =>
    intro n hn
    cases n <;> rw [squashNlRuns] <;> rfl
  | case2 rest ih =>
    intro n hn
    cases n with
    | zero => simp at hn
    | succ m =>
      rw [squashNlRunsF, squash_cons_nl, if_pos rfl,
        ih _ (Nat.le_trans (List.dropWhile_suffix _).length_le (Nat.succ_le_succ_iff.mp hn))]
  | case3 c rest hc ih =>
    intro n hn
    cases n with
    | zero => simp at hn
    | succ m =>
      rw [squashNlRunsF, squash_cons_ne hc, if_neg hc, ih _ (Nat.succ_le_succ_iff.mp hn)]

/-- `squashNlRuns` through its structural twin. -/
def squashNlRunsE (r : Nat) (s : Str) : Str := squashNlRunsF r s.length s

theorem squashNlRuns_eval (r : Nat) (s : Str) : squashNlRuns r s = squashNlRunsE r s :=
  (squashNlRunsF_eq r s s.length (Nat.le_refl _)).symm

/-- `normalize_spaces_keep_newlines` through the structural twins. -/
def normalizeSpacesKeepNewlinesE (s : Str) : Str :=
  if s = [] then s
  else collapseSpaceRunsE (collapseTabRunsE (replaceCrNl (replaceNbsp s)))

theorem normalizeSpacesKeepNewlines_eval (s : Str) :
    normalizeSpacesKeepNewlines s = normalizeSpacesKeepNewlinesE s := by
  simp only [normalizeSpacesKeepNewlines, normalizeSpacesKeepNewlinesE,
    collapseSpaceRuns_eval, collapseTabRuns_eval]

/-- `normalize_spaces_singleline` through the structural twins. -/
def normalizeSpacesSinglelineE (s : Str) : Str :=
  if s = [] then s
  else pyStrip (collapseSpaceRunsE (collapseTabRunsE (replaceCrNlSpace (replaceNbsp s))))

theorem normalizeSpacesSingleline_eval (s : Str) :
    normalizeSpacesSingleline s = normalizeSpacesSinglelineE s := by
  simp only [normalizeSpacesSingleline, normalizeSpacesSinglelineE,
    collapseSpaceRuns_eval, collapseTabRuns_eval]

/-- `add_block` through the structural twins. -/
def addBlockE (textIn : Str) (preserveNewlines : Bool) : Option Str :=
  if textIn = [] then none
  else
    let t := repairMojibake (unescapeHtmlE textIn)
    if preserveNewlines then
      let lines2 := dropOuterEmptyLines ((splitNl (normalizeSpacesKeepNewlinesE t)).map stripLine)
      if lines2 = [] then none
      else
        let lines3 := lines2.filter (fun ln => !isNoiseLine ln)
        if lines3 = [] then none else some (joinNl lines3)
    else
      let block := normalizeSpacesSinglelineE t
      if block = [] then none else some block

theorem addBlock_eval (textIn : Str) (p : Bool) : addBlock textIn p = addBlockE textIn p := by
  simp only [addBlock, addBlockE, unescapeHtml_eval, normalizeSpacesKeepNewlines_eval,
    normalizeSpacesSingleline_eval]

/-- `handle` through the structural twins. -/
def handleE (opt : ExtractOptions) (tag : Node) : List Str :=
  let name := lowerStr tag.nameOf
  if name ∈ headingNames then
    let txt := getText [' '] true tag
    if txt = [] then []
    else (addBlockE (if txt.length ≤ 80 then upperStr txt else txt) false).toList
  else if name = "hr".data then [[]]
  else if name = "ul".data ∨ name = "ol".data then
    let items := (tag.childrenOf.filter
        (fun li => li.isElem && decide (li.nameOf = "li".data))).filterMap
      (fun li =>
        let it := getText [' '] true li
        if it = [] then none else some ('-' :: ' ' :: it))
    if items = [] then [] else (addBlockE (joinNl items) true).toList
  else if name = "pre".data ∧ opt.preserve_preformatted then
    (addBlockE (squashNlRunsE 2 (replaceCrNl (getText ['\n'] false tag))) true).toList
  else if name = "blockquote".data then
    (addBlockE (squashNlRunsE 2 (replaceCrNl (getText ['\n'] false tag))) true).toList
  else if opt.preserve_poetry ∧ looksLikePoetryBlock tag then
    (addBlockE (squashNlRunsE 2 (replaceCrNl (getText ['\n'] false tag))) true).toList
  else if name = "p".data ∨ name = "div".data then
    if name = "div".data ∧
        (tag.childrenOf.any (fun c => c.isElem && decide (c.nameOf ∈ nestedBlockNames))) then []
    else
      let brCount := (findAllTags ["br".data] tag).length
      if opt.keep_br_as_newline ∧ 0 < brCount then
        (addBlockE (getText ['\n'] false tag) true).toList
      else
        (addBlockE (getText [' '] false tag) false).toList
  else []

theorem handle_eval (opt : ExtractOptions) (tag : Node) : handle opt tag = handleE opt tag := by
  simp only [handle, handleE, addBlock_eval, squashNlRuns_eval]

/-- `extract_clean_text` through the structural twins. -/
def extractCleanTextE (opt : ExtractOptions) (soup : Node) : Str :=
  let cleaned := removeNonContent soup
  let container := selectMainContainer cleaned
  let blocks := (findAllTags blockTags container).flatMap (handleE opt)
  let out1 := joinBlocks blocks
  let out2 := squashNlRunsE 3 out1
  let out3 := joinNl ((splitNl out2).map pyRStrip)
  pyStrip out3 ++ ['\n']

theorem extractCleanText_eval (opt : ExtractOptions) (soup : Node) :
    extractCleanText opt soup = extractCleanTextE opt soup := by
  simp only [extractCleanText, extractCleanTextE, squashNlRuns_eval]
  rw [show (handle opt) = (handleE opt) from funext (fun tag => handle_eval opt tag)]

/-! ## C3: line-break elements in poetry blocks -/

/-- The poetry division of the C3 scenario,
`<div class="poetry">Line one<br>Line two<br><br>Line three</div>`,
wrapped in a document. -/
def poetryDoc : Node :=
  docWrap [.elem "div".data [("class".data, "poetry".data)]
    [.text "Line one".data, .elem "br".data [] [],
     .text "Line two".data, .elem "br".data [] [], .elem "br".data [] [],
     .text "Line three".data]]

/-- C3: the claim is false of the code.  A `<br>` contributes no text
node, and `get_text("\n")` only separates the text fragments that do
exist, so the run `<br><br>` in the poetry scenario produces a single
newline, not two: the extracted text is "Line one\nLine two\nLine
three\n", and the blank line the spec promises between "Line two" and
"Line three" is absent. -/
theorem poetry_br_blank_line_lost :
    extractCleanText defaultOptions poetryDoc = "Line one\nLine two\nLine three\n".data ∧
    ¬ ("Line two\n\nLine three".data <:+: extractCleanText defaultOptions poetryDoc) := by
  rw [extractCleanText_eval]
  decide

/-! ## C7, C8: heading and paragraph blocks -/

/-- With `preserve_newlines=False`, `add_block` emits exactly the
single-line normalization of the unescaped, repaired text, and only
when that normalization is nonempty. -/
theorem addBlock_false_eq {t b : Str} (h : addBlock t false = some b) :
    b = normalizeSpacesSingleline (repairMojibake (unescapeHtml t)) ∧ b ≠ [] := by
  simp only [addBlock] at h
  by_cases h0 : t = []
  · rw [if_pos h0] at h
    exact absurd h (by simp)
  · rw [if_neg h0, if_neg (by simp)] at h
    by_cases hb : normalizeSpacesSingleline (repairMojibake (unescapeHtml t)) = []
    · rw [if_pos hb] at h
      exact absurd h (by simp)
    · rw [if_neg hb] at h
      have hbe : b = normalizeSpacesSingleline (repairMojibake (unescapeHtml t)) :=
        (Option.some.injEq _ _ ▸ h).symm
      exact ⟨hbe, by rw [hbe]; exact hb⟩

/-- A block emitted by `add_block` with `preserve_newlines=False` is
nonempty and contains no newline. -/
theorem addBlock_false_mem {t b : Str} (h : b ∈ (addBlock t false).toList) :
    b ≠ [] ∧ '\n' ∉ b := by
  cases ha : addBlock t false with
  | none => rw [ha] at h; simp at h
  | some b2 =>
    rw [ha] at h
    simp only [Option.toList_some, List.mem_singleton] at h
    subst h
    obtain ⟨hb, hne⟩ := addBlock_false_eq ha
    exact ⟨hne, hb ▸ no_nl_normalizeSingleline _⟩

/-- The heading branch of `handle`, isolated: for a `h1`–`h5` tag the
emitted blocks are those of `add_block` applied to the raw
`get_text(" ", strip=True)` text, uppercased exactly when that raw
text has at most 80 characters. -/
theorem handle_heading_eq (opt : ExtractOptions) (tag : Node)
    (hname : lowerStr tag.nameOf ∈ headingNames) :
    handle opt tag =
      (if getText [' '] true tag = [] then []
       else (addBlock (if (getText [' '] true tag).length ≤ 80
          then upperStr (getText [' '] true tag)
          else getText [' '] true tag) false).toList) := by
  simp only [handle]
  rw [if_pos hname]

/-- A heading block is nonempty and newline-free. -/
theorem handle_heading_no_nl (opt : ExtractOptions) (tag : Node)
    (hname : lowerStr tag.nameOf ∈ headingNames) :
    ∀ b ∈ handle opt tag, b ≠ [] ∧ '\n' ∉ b := by
  rw [handle_heading_eq opt tag hname]
  intro b hb
  by_cases h0 : getText [' '] true tag = []
  · rw [if_pos h0] at hb
    simp at hb
  · rw [if_neg h0] at hb
    exact addBlock_false_mem hb

/-- C7, amended: the heading classifier tests the 80-character bound
on the raw joined heading text, before whitespace collapsing (not
after it, as the spec words it): an empty heading emits no block, a
raw text of at most 80 characters is uppercased before single-line
normalization, a longer raw text keeps its case, and every emitted
heading block is nonempty and newline-free. -/
theorem heading_block_amended (opt : ExtractOptions) (tag : Node)
    (hname : lowerStr tag.nameOf ∈ headingNames) :
    (getText [' '] true tag = [] → handle opt tag = []) ∧
    ((getText [' '] true tag).length ≤ 80 →
      handle opt tag = (addBlock (upperStr (getText [' '] true tag)) false).toList) ∧
    (80 < (getText [' '] true tag).length →
      handle opt tag = (addBlock (getText [' '] true tag) false).toList) ∧
    (∀ b ∈ handle opt tag, b ≠ [] ∧ '\n' ∉ b) := by
  rw [handle_heading_eq opt tag hname]
  refine ⟨fun h0 => by rw [if_pos h0], fun h80 => ?_, fun h80 => ?_, fun b hb => ?_⟩
  · by_cases h0 : getText [' '] true tag = []
    · rw [if_pos h0, h0]
      rfl
    · rw [if_neg h0, if_pos h80]
  · have h0 : getText [' '] true tag ≠ [] := by
      intro h
      rw [h] at h80
      simp at h80
    rw [if_neg h0, if_neg (by omega)]
  · rw [← handle_heading_eq opt tag hname] at hb
    exact handle_heading_no_nl opt tag hname b hb
  
/-- Witness for C7: a short concrete heading is uppercased via the
raw-length test. -/
theorem heading_block_amended_witness :
    lowerStr (Node.elem "h2".data [] [Node.text "My Title".data]).nameOf ∈ headingNames ∧
    (getText [' '] true (Node.elem "h2".data [] [Node.text "My Title".data])).length ≤ 80 ∧
    handle defaultOptions (Node.elem "h2".data [] [Node.text "My Title".data]) =
      (addBlock (upperStr (getText [' '] true (Node.elem "h2".data [] [Node.text "My Title".data])))
        false).toList :=
  ⟨by decide, by decide,
   (heading_block_amended defaultOptions _ (by decide)).2.1 (by decide)⟩

/-- The 81-character heading of the C7 counterexample: 78 `x`s, two
spaces, one more `x`. -/
def longHeadingDoc : Node :=
  docWrap [.elem "h2".data [] [.text (List.replicate 78 'x' ++ "  x".data)]]

/-- C7, counterexample: the 80-character test uses the raw heading
text, not the whitespace-collapsed one.  A heading whose raw text has
81 characters but collapses to 80 is not uppercased, though the
claim's reading ("collapse, then uppercase if at most 80") demands it:
the emitted text is the 80-character lower-case collapsed form. -/
theorem heading_uppercase_length_counterexample :
    extractCleanText defaultOptions longHeadingDoc =
      List.replicate 78 'x' ++ " x\n".data ∧
    (List.replicate 78 'x' ++ " x".data).length ≤ 80 ∧
    upperStr (List.replicate 78 'x' ++ " x".data) ≠ List.replicate 78 'x' ++ " x".data := by
  rw [extractCleanText_eval]
  decide

/-- C8, amended: a heading block never contains a newline; a
paragraph-branch block (`p`, or a flattened `div`, not classified as
poetry) never contains a newline *provided* `<br>`-preservation is off
or the tag has no `<br>` descendant — with `keep_br_as_newline` on and
a `<br>` present, the paragraph branch deliberately emits the break as
a newline, contradicting the claim's "every option setting". -/
theorem heading_paragraph_blocks_no_newline (opt : ExtractOptions) (tag : Node) :
    (lowerStr tag.nameOf ∈ headingNames → ∀ b ∈ handle opt tag, '\n' ∉ b) ∧
    ((lowerStr tag.nameOf = "p".data ∨ lowerStr tag.nameOf = "div".data) →
      (opt.preserve_poetry = false ∨ looksLikePoetryBlock tag = false) →
      (opt.keep_br_as_newline = false ∨ (findAllTags ["br".data] tag).length = 0) →
      ∀ b ∈ handle opt tag, '\n' ∉ b) := by
  constructor
  · intro hname b hb
    exact (handle_heading_no_nl opt tag hname b hb).2
  · intro hname hpoetry hbr b hb
    have hnh : lowerStr tag.nameOf ∉ headingNames := by
      rcases hname with h | h <;> rw [h] <;> decide
    have hpo : ¬ (opt.preserve_poetry = true ∧ looksLikePoetryBlock tag = true) := by
      rcases hpoetry with h | h <;> simp [h]
    have hbc : ¬ (opt.keep_br_as_newline = true ∧ 0 < (findAllTags ["br".data] tag).length) := by
      rcases hbr with h | h <;> simp [h]
    simp only [handle] at hb
    rw [if_neg hnh] at hb
    rcases hname with h | h
    · rw [h] at hb
      rw [if_neg (by decide), if_neg (by decide), if_neg (fun hx => by simp at hx),
        if_neg (fun hx => by simp at hx), if_neg hpo, if_pos (Or.inl rfl),
        if_neg (fun hx => by simp at hx)] at hb
      rw [if_neg hbc] at hb
      exact (addBlock_false_mem hb).2
    · rw [h] at hb
      rw [if_neg (by decide), if_neg (by decide), if_neg (fun hx => by simp at hx),
        if_neg (fun hx => by simp at hx), if_neg hpo, if_pos (Or.inr rfl)] at hb
      by_cases hnested : (Node.elem "div".data [] [] ).isElem = true
      · by_cases hnest2 : ("div".data : Str) = "div".data ∧
            tag.childrenOf.any (fun c => c.isElem && decide (c.nameOf ∈ nestedBlockNames)) = true
        · rw [if_pos hnest2] at hb
          simp at hb
        · rw [if_neg hnest2, if_neg hbc] at hb
          exact (addBlock_false_mem hb).2
      · exact absurd rfl hnested

/-- Witness for C8: the no-newline conclusions at a concrete heading
and a concrete `<br>`-free paragraph. -/
theorem heading_paragraph_blocks_no_newline_witness :
    (∀ b ∈ handle defaultOptions (Node.elem "h2".data [] [Node.text "A Title".data]), '\n' ∉ b) ∧
    (∀ b ∈ handle defaultOptions (Node.elem "p".data [] [Node.text "Body text.".data]), '\n' ∉ b) :=
  ⟨(heading_paragraph_blocks_no_newline defaultOptions
      (Node.elem "h2".data [] [Node.text "A Title".data])).1 (by decide),
   (heading_paragraph_blocks_no_newline defaultOptions
      (Node.elem "p".data [] [Node.text "Body text.".data])).2
      (by decide) (by decide) (by decide)⟩

/-- C8, counterexample: with `keep_br_as_newline` on (its default), a
paragraph containing a `<br>` is emitted with the break as an internal
newline: the classifier output for `<p>a<br>b</p>` is the single block
"a\nb". -/
theorem paragraph_br_newline_counterexample :
    handle defaultOptions
        (Node.elem "p".data [] [Node.text "a".data, Node.elem "br".data [] [],
          Node.text "b".data]) = ["a\nb".data] ∧
    '\n' ∈ "a\nb".data := by
  rw [handle_eval]
  decide

/-! ## C2: newline-run bounds of both pipelines -/

/-- Benign characters for the extraction pipeline: any whitespace is
one of the seven code points the pipeline itself normalizes (space,
tab, newline, CR, form feed, vertical tab, NBSP), and the character is
no mojibake tell-tale, no `&` (so `unescape` is inert) and no `\` (so
no literal escape sequence can arise).  HTML book text is benign;
exotic Unicode whitespace is not, and can indeed break the blank-line
bound (it survives `strip_line` and is erased by the final per-line
`rstrip`, merging newline runs). -/
def benignChar (c : Char) : Bool :=
  (!isPyWs c || decide (c ∈ ([' ', '\t', '\n', '\r', '\x0c', '\x0b', ' '] : List Char))) &&
  decide (c ∉ mojibakeHintChars) && decide (c ≠ '&') && decide (c ≠ '\\')

/-- Every text node of the tree is made of benign characters. -/
def benignNode (n : Node) : Bool := (Node.strings n).all (fun s => s.all benignChar)

theorem benignChar_props {c : Char} (h : benignChar c = true) :
    (isPyWs c = true → c ∈ ([' ', '\t', '\n', '\r', '\x0c', '\x0b', ' '] : List Char)) ∧
    c ∉ mojibakeHintChars ∧ c ≠ '&' ∧ c ≠ '\\' := by
  simp only [benignChar, Bool.and_eq_true, Bool.or_eq_true, Bool.not_eq_true',
    decide_eq_true_eq] at h
  refine ⟨fun hw => ?_, h.1.1.2, h.1.2, h.2⟩
  rcases h.1.1.1 with h0 | h0
  · rw [hw] at h0
    exact absurd h0 (by simp)
  · exact h0

/-- A string without `&` is fixed by `unescapeHtml`. -/
theorem unescapeHtml_eq_self {s : Str} (h : '&' ∉ s) : unescapeHtml s = s := by
  induction s using unescapeHtml.induct with
  | case1 => rw [unescapeHtml]
  | case2 rest d k hek ih => simp at h
  | case3 rest hek ih => simp at h
  | case4 c rest hc ih =>
    rw [List.mem_cons, not_or] at h
    rw [unescapeHtml, if_neg hc, ih h.2]

theorem hasEscapeSeq_cons_ne {c : Char} (hc : c ≠ '\\') (rest : Str) :
    hasEscapeSeq (c :: rest) = hasEscapeSeq rest := by
  rw [hasEscapeSeq.eq_def]
  split
  · next h1 h2 r heq =>
    rw [List.cons.injEq] at heq
    exact absurd heq.1 hc
  · next head r hne heq =>
    rw [List.cons.injEq] at heq
    rw [heq.2]
  · next heq => exact absurd heq (by simp)

/-- A string without a backslash holds no `\xHH` escape sequence. -/
theorem hasEscapeSeq_eq_false {s : Str} (h : '\\' ∉ s) : hasEscapeSeq s = false := by
  induction s with
  | nil => rfl
  | cons c rest ih =>
    rw [List.mem_cons, not_or] at h
    rw [hasEscapeSeq_cons_ne (fun hx => h.1 hx.symm), ih h.2]

/-- Benign text carries no mojibake tell-tale, so `repair_mojibake`
leaves it unchanged. -/
theorem repairMojibake_eq_of_benign {t : Str} (hb : ∀ c ∈ t, benignChar c = true) :
    repairMojibake t = t := by
  apply repairMojibake_eq_of_no_hint
  unfold hasMojibakeHint
  rw [hasEscapeSeq_eq_false (fun hm => ((benignChar_props (hb _ hm)).2.2.2) rfl)]
  simp only [Bool.or_false, List.any_eq_false, decide_eq_true_eq]
  intro c hc
  exact fun hmem => (benignChar_props (hb c hc)).2.1 hmem

theorem intercalate_cons {α : Type} (sep l : List α) {ls : List (List α)} (h : ls ≠ []) :
    List.intercalate sep (l :: ls) = l ++ sep ++ List.intercalate sep ls := by
  cases ls with
  | nil => exact absurd rfl h
  | cons b bs => simp [List.intercalate, List.intersperse]

theorem mem_intercalate {α : Type} {sep : List α} {ls : List (List α)} {c : α}
    (h : c ∈ List.intercalate sep ls) : c ∈ sep ∨ ∃ l ∈ ls, c ∈ l := by
  induction ls with
  | nil => simp [List.intercalate] at h
  | cons l ls ih =>
    cases ls with
    | nil =>
      right
      exact ⟨l, by simp, by simpa [List.intercalate] using h⟩
    | cons b bs =>
      rw [intercalate_cons _ _ (by simp), List.mem_append, List.mem_append] at h
      rcases h with (h | h) | h
      · right
        exact ⟨l, by simp, h⟩
      · left
        exact h
      · rcases ih h with h | ⟨x, hx, hcx⟩
        · left
          exact h
        · right
          exact ⟨x, List.mem_cons_of_mem _ hx, hcx⟩

/-- The characters of `get_text` come from the separator or from the
tree's text nodes. -/
theorem benign_getText {sep : Str} {strip : Bool} {n : Node}
    (hsep : ∀ c ∈ sep, benignChar c = true)
    (hb : ∀ s ∈ Node.strings n, ∀ c ∈ s, benignChar c = true) :
    ∀ c ∈ getText sep strip n, benignChar c = true := by
  intro c hc
  unfold getText at hc
  by_cases hs : strip = true
  · rw [if_pos hs] at hc
    rcases mem_intercalate hc with h | ⟨l, hl, hcl⟩
    · exact hsep c h
    · rw [List.mem_filter] at hl
      rcases List.mem_map.mp hl.1 with ⟨s0, hs0, rfl⟩
      exact hb s0 hs0 c (mem_pyStrip hcl)
  · rw [if_neg hs] at hc
    rcases mem_intercalate hc with h | ⟨l, hl, hcl⟩
    · exact hsep c h
    · exact hb l hl c hcl

/-- On benign input, the whitespace surviving
`normalize_spaces_keep_newlines` is only spaces and newlines. -/
theorem normalizeKeep_ws {t : Str} (hb : ∀ c ∈ t, benignChar c = true) :
    ∀ c ∈ normalizeSpacesKeepNewlines t, isPyWs c = true → c = ' ' ∨ c = '\n' := by
  intro c hc hw
  unfold normalizeSpacesKeepNewlines at hc
  by_cases h0 : t = []
  · rw [if_pos h0, h0] at hc
    simp at hc
  · rw [if_neg h0] at hc
    rcases mem_collapseSpaceRuns hc with h | h
    · exact Or.inl h
    rcases mem_collapseTabRuns h with h2 | ⟨h2, htab⟩
    · exact Or.inl h2
    rcases mem_replaceCrNl h2 with h3 | ⟨h3, hcr⟩
    · exact Or.inr h3
    rcases mem_replaceNbsp h3 with h4 | ⟨h4, hnbsp⟩
    · exact Or.inl h4
    have hlist := (benignChar_props (hb c h4)).1 hw
    simp only [List.mem_cons, List.not_mem_nil, or_false] at hlist
    rcases hlist with rfl | rfl | rfl | rfl | rfl | rfl | rfl
    · exact Or.inl rfl
    · exact absurd htab (by simp [isTabFfVt])
    · exact Or.inr rfl
    · exact absurd rfl hcr
    · exact absurd htab (by simp [isTabFfVt])
    · exact absurd htab (by simp [isTabFfVt])
    · exact absurd rfl hnbsp

theorem mem_stripLine {l : Str} {c : Char} (h : c ∈ stripLine l) : c ∈ l := by
  unfold stripLine at h
  rw [List.mem_reverse] at h
  have h2 := (List.dropWhile_suffix _).subset h
  rw [List.mem_reverse] at h2
  exact (List.dropWhile_suffix _).subset h2

/-- When every whitespace character of a line is a plain space,
`strip_line` leaves nothing for a later `rstrip()` to remove. -/
theorem pyRStrip_stripLine {l : Str} (hws : ∀ c ∈ l, isPyWs c = true → c = ' ') :
    pyRStrip (stripLine l) = stripLine l := by
  unfold stripLine pyRStrip
  rw [List.reverse_reverse]
  cases hu : (l.dropWhile isSpTab).reverse.dropWhile isSpTab with
  | nil => simp
  | cons d u =>
    have hd : isSpTab d = false := dropWhile_head_false hu
    have hdl : d ∈ l := by
      have h1 : d ∈ (l.dropWhile isSpTab).reverse.dropWhile isSpTab := by
        rw [hu]
        simp
      have h2 := (List.dropWhile_suffix _).subset h1
      rw [List.mem_reverse] at h2
      exact (List.dropWhile_suffix _).subset h2
    have hpw : isPyWs d = false := by
      by_cases hp : isPyWs d = true
      · rw [hws d hdl hp] at hd
        exact absurd hd (by simp [isSpTab])
      · simpa using hp
    rw [List.dropWhile_cons, if_neg (by simp [hpw])]

theorem mem_dropOuterEmptyLines {ls : List Str} {l : Str} (h : l ∈ dropOuterEmptyLines ls) :
    l ∈ ls := by
  unfold dropOuterEmptyLines at h
  rw [List.mem_reverse] at h
  have h2 := (List.dropWhile_suffix _).subset h
  rw [List.mem_reverse] at h2
  exact (List.dropWhile_suffix _).subset h2

/-- Every line of a block emitted by `add_block` with
`preserve_newlines=True` on benign input is fixed by `rstrip()`. -/
theorem addBlock_true_lines {t b : Str} (hb : ∀ c ∈ t, benignChar c = true)
    (h : b ∈ (addBlock t true).toList) :
    ∀ l ∈ splitNl b, pyRStrip l = l := by
  have hne : t ≠ [] := by
    intro h0
    rw [h0] at h
    simp [addBlock] at h
  have hu : unescapeHtml t = t :=
    unescapeHtml_eq_self (fun hm => ((benignChar_props (hb _ hm)).2.2.1) rfl)
  have hr : repairMojibake t = t := repairMojibake_eq_of_benign hb
  simp only [addBlock, if_neg hne, hu, hr, if_pos rfl] at h
  by_cases h2 : dropOuterEmptyLines ((splitNl (normalizeSpacesKeepNewlines t)).map stripLine) = []
  · rw [if_pos h2] at h
    simp at h
  · rw [if_neg h2] at h
    by_cases h3 : (dropOuterEmptyLines
        ((splitNl (normalizeSpacesKeepNewlines t)).map stripLine)).filter
        (fun ln => !isNoiseLine ln) = []
    · rw [if_pos h3] at h
      simp at h
    · rw [if_neg h3] at h
      have hbj : b = joinNl ((dropOuterEmptyLines
          ((splitNl (normalizeSpacesKeepNewlines t)).map stripLine)).filter
          (fun ln => !isNoiseLine ln)) := by
        simpa using h
      subst hbj
      have hlines : ∀ x ∈ (dropOuterEmptyLines
          ((splitNl (normalizeSpacesKeepNewlines t)).map stripLine)).filter
          (fun ln => !isNoiseLine ln), '\n' ∉ x := by
        intro x hx hnl
        have hx2 := mem_dropOuterEmptyLines (List.mem_filter.mp hx).1
        rcases List.mem_map.mp hx2 with ⟨l0, hl0, rfl⟩
        exact nl_not_mem_splitNl hl0 (mem_stripLine hnl)
      intro l hl
      rw [splitNl_joinNl hlines h3] at hl
      have hx2 := mem_dropOuterEmptyLines (List.mem_filter.mp hl).1
      rcases List.mem_map.mp hx2 with ⟨l0, hl0, rfl⟩
      apply pyRStrip_stripLine
      intro c hc hw
      rcases normalizeKeep_ws hb c (mem_of_mem_splitNl hl0 hc) hw with h | h
      · exact h
      · exact absurd (h ▸ hc) (nl_not_mem_splitNl hl0)

/-- Every line of a block emitted by `add_block` with
`preserve_newlines=False` is fixed by `rstrip()` (the block is one
`pyStrip`-normalized line). -/
theorem addBlock_false_lines {t b : Str} (h : b ∈ (addBlock t false).toList) :
    ∀ l ∈ splitNl b, pyRStrip l = l := by
  cases ha : addBlock t false with
  | none =>
    rw [ha] at h
    simp at h
  | some b2 =>
    rw [ha] at h
    simp only [Option.toList_some, List.mem_singleton] at h
    subst h
    obtain ⟨hbe, hbne⟩ := addBlock_false_eq ha
    intro l hl
    rw [splitNl_no_nl (hbe ▸ no_nl_normalizeSingleline _), List.mem_singleton] at hl
    subst hl
    rw [hbe]
    unfold normalizeSpacesSingleline
    by_cases hX : repairMojibake (unescapeHtml t) = []
    · rw [if_pos hX, hX]
      rfl
    · rw [if_neg hX]
      exact pyRStrip_pyStrip _

theorem strings_forest_mem_sub {s : Str} :
    ∀ (ns : List Node), ∀ m ∈ ns, s ∈ Node.strings m → s ∈ stringsList ns := by
  intro ns
  induction ns with
  | nil =>
    intro m hm
    simp at hm
  | cons n ns ih =>
    intro m hm hs
    rw [List.mem_cons] at hm
    rw [show stringsList (n :: ns) = Node.strings n ++ stringsList ns from rfl, List.mem_append]
    rcases hm with rfl | hm
    · exact Or.inl hs
    · exact Or.inr (ih m hm hs)

/-- The text of a child is text of the parent. -/
theorem strings_children_sub {m n : Node} (hm : m ∈ n.childrenOf) :
    ∀ s ∈ Node.strings m, s ∈ Node.strings n := by
  intro s hs
  cases n with
  | text t => simp [Node.childrenOf] at hm
  | elem nm ats cs =>
    rw [show Node.strings (Node.elem nm ats cs) = stringsList cs from rfl]
    exact strings_forest_mem_sub cs m hm hs

/-- The text of a descendant is text of the ancestor. -/
theorem strings_descendants_sub :
    ∀ (n : Node), ∀ m ∈ Node.descendants n, ∀ s ∈ Node.strings m, s ∈ Node.strings n :=
  @Node.rec (fun n => ∀ m ∈ Node.descendants n, ∀ s ∈ Node.strings m, s ∈ Node.strings n)
    (fun ns => ∀ m ∈ descendantsList ns, ∀ s ∈ Node.strings m, s ∈ stringsList ns)
    (fun s => by
      intro m hm
      simp [Node.descendants] at hm)
    (fun nm ats cs ih => by
      intro m hm s hs
      exact ih m hm s hs)
    (by
      intro m hm
      simp [descendantsList] at hm)
    (fun n ns ih1 ih2 => by
      intro m hm s hs
      rw [show descendantsList (n :: ns) = n :: (Node.descendants n ++ descendantsList ns)
          from rfl, List.mem_cons, List.mem_append] at hm
      rw [show stringsList (n :: ns) = Node.strings n ++ stringsList ns from rfl,
        List.mem_append]
      rcases hm with rfl | hm | hm
      · exact Or.inl hs
      · exact Or.inl (ih1 m hm s hs)
      · exact Or.inr (ih2 m hm s hs))

/-- Removing nodes only removes text. -/
theorem strings_removeNodes_sub (p : Node → Bool) :
    ∀ (n : Node), ∀ s ∈ Node.strings (removeNodes p n), s ∈ Node.strings n :=
  @Node.rec (fun n => ∀ s ∈ Node.strings (removeNodes p n), s ∈ Node.strings n)
    (fun ns => ∀ s ∈ stringsList (removeNodesList p ns), s ∈ stringsList ns)
    (fun s => by simp [removeNodes])
    (fun nm ats cs ih => by
      intro s hs
      rw [show removeNodes p (Node.elem nm ats cs) = Node.elem nm ats (removeNodesList p cs)
          from rfl] at hs
      exact ih s hs)
    (by simp [removeNodesList])
    (fun n ns ih1 ih2 => by
      intro s hs
      rw [show removeNodesList p (n :: ns) = if p n then removeNodesList p ns
          else removeNodes p n :: removeNodesList p ns from rfl] at hs
      rw [show stringsList (n :: ns) = Node.strings n ++ stringsList ns from rfl,
        List.mem_append]
      by_cases hp : p n = true
      · rw [if_pos hp] at hs
        exact Or.inr (ih2 s hs)
      · rw [if_neg hp] at hs
        rw [show stringsList (removeNodes p n :: removeNodesList p ns) =
          Node.strings (removeNodes p n) ++ stringsList (removeNodesList p ns) from rfl,
          List.mem_append] at hs
        rcases hs with hs | hs
        · exact Or.inl (ih1 s hs)
        · exact Or.inr (ih2 s hs))

/-- The chosen main container's text is text of the document. -/
theorem strings_selectMainContainer_sub (root : Node) :
    ∀ s ∈ Node.strings (selectMainContainer root), s ∈ Node.strings root := by
  intro s hs
  unfold selectMainContainer at hs
  cases hfs : mainSelectors.findSome? (fun sel =>
      match selectOne sel root with
      | some t => if 1000 < (getText [] true t).length then some t else none
      | none => none) with
  | some t =>
    rw [hfs] at hs
    obtain ⟨sel, hsel, hmk⟩ := List.exists_of_findSome?_eq_some hfs
    cases hso : selectOne sel root with
    | none =>
      rw [hso] at hmk
      exact absurd (show (none : Option Node) = some t from hmk) (by simp)
    | some t2 =>
      rw [hso] at hmk
      have hmk2 : (if 1000 < (getText [] true t2).length then some t2 else none) = some t := hmk
      have ht2 : t2 ∈ Node.descendants root := List.mem_of_find?_eq_some hso
      by_cases hlen : 1000 < (getText [] true t2).length
      · rw [if_pos hlen] at hmk2
        have ht : t2 = t := by simpa using hmk2
        subst ht
        exact strings_descendants_sub root t2 ht2 s hs
      · rw [if_neg hlen] at hmk2
        exact absurd hmk2 (by simp)
  | none =>
    rw [hfs] at hs
    cases hfb : (Node.descendants root).find?
        (fun m => m.isElem && decide (m.nameOf = "body".data)) with
    | some bnode =>
      rw [hfb] at hs
      exact strings_descendants_sub root bnode (List.mem_of_find?_eq_some hfb) s hs
    | none =>
      rw [hfb] at hs
      exact hs

/-- Every line of every block `handle` emits from a benign tag is
fixed by `rstrip()`. -/
theorem handle_blocks_ok (opt : ExtractOptions) (tag : Node)
    (hb : ∀ s ∈ Node.strings tag, ∀ c ∈ s, benignChar c = true) :
    ∀ b ∈ handle opt tag, ∀ l ∈ splitNl b, pyRStrip l = l := by
  intro b hbm
  have hbn : ∀ c ∈ getText ['\n'] false tag, benignChar c = true :=
    benign_getText (by decide) hb
  have hsq : ∀ c ∈ squashNlRuns 2 (replaceCrNl (getText ['\n'] false tag)),
      benignChar c = true := by
    intro c hc
    rcases mem_squashNlRuns hc with h | h
    · rw [h]
      decide
    rcases mem_replaceCrNl h with h2 | ⟨h2, _⟩
    · rw [h2]
      decide
    · exact hbn c h2
  have hjoin : ∀ c ∈ joinNl ((tag.childrenOf.filter
      (fun li => li.isElem && decide (li.nameOf = "li".data))).filterMap
      (fun li =>
        let it := getText [' '] true li
        if it = [] then none else some ('-' :: ' ' :: it))), benignChar c = true := by
    intro c hc
    rcases mem_joinNl hc with h | ⟨l, hl, hcl⟩
    · rw [h]
      decide
    rcases List.mem_filterMap.mp hl with ⟨li, hli, hmk⟩
    simp only at hmk
    by_cases h0 : getText [' '] true li = []
    · rw [if_pos h0] at hmk
      exact absurd hmk (by simp)
    · rw [if_neg h0] at hmk
      have hle : l = '-' :: ' ' :: getText [' '] true li := (Option.some.injEq _ _ ▸ hmk).symm
      subst hle
      rcases List.mem_cons.mp hcl with rfl | hcl2
      · decide
      rcases List.mem_cons.mp hcl2 with rfl | hcl3
      · decide
      · have hsub := strings_children_sub (List.mem_filter.mp hli).1
        exact benign_getText (by decide)
          (fun s0 hs0 c2 hc2 => hb s0 (hsub s0 hs0) c2 hc2) c hcl3
  simp only [handle] at hbm
  split at hbm
  · split at hbm
    · simp at hbm
    · exact addBlock_false_lines hbm
  · split at hbm
    · rw [List.mem_singleton] at hbm
      subst hbm
      intro l hl
      rw [show splitNl [] = [[]] from rfl, List.mem_singleton] at hl
      subst hl
      rfl
    · split at hbm
      · split at hbm
        · simp at hbm
        · exact addBlock_true_lines hjoin hbm
      · split at hbm
        · exact addBlock_true_lines hsq hbm
        · split at hbm
          · exact addBlock_true_lines hsq hbm
          · split at hbm
            · exact addBlock_true_lines hsq hbm
            · split at hbm
              · split at hbm
                · simp at hbm
                · split at hbm
                  · exact addBlock_true_lines hbn hbm
                  · exact addBlock_false_lines hbm
              · simp at hbm

/-- `extract_clean_text` unfolded (its `let` chain inlined). -/
theorem extractCleanText_eq (opt : ExtractOptions) (soup : Node) :
    extractCleanText opt soup =
      pyStrip (joinNl ((splitNl (squashNlRuns 3 (joinBlocks
        ((findAllTags blockTags (selectMainContainer (removeNonContent soup))).flatMap
          (handle opt))))).map pyRStrip)) ++ ['\n'] := rfl

/-- On a benign document, `extract_clean_text` output never contains
4 consecutive newlines. -/
theorem extract_noNlRun (opt : ExtractOptions) (root : Node) (hb : benignNode root = true) :
    noNlRun 4 (extractCleanText opt root) := by
  have hbP : ∀ s ∈ Node.strings root, ∀ c ∈ s, benignChar c = true := by
    simp only [benignNode, List.all_eq_true] at hb
    intro s hs c hc
    exact hb s hs c hc
  have hcont : ∀ s ∈ Node.strings (selectMainContainer (removeNonContent root)),
      s ∈ Node.strings root := by
    intro s hs
    have h1 := strings_selectMainContainer_sub (removeNonContent root) s hs
    unfold removeNonContent at h1
    exact strings_removeNodes_sub _ _ s
      (strings_removeNodes_sub _ _ s (strings_removeNodes_sub _ _ s h1))
  have hlines : ∀ l ∈ splitNl (joinBlocks
      ((findAllTags blockTags (selectMainContainer (removeNonContent root))).flatMap
        (handle opt))), pyRStrip l = l := by
    intro l hl
    rcases mem_splitNl_joinBlocks hl with rfl | ⟨b, hbm, hlb⟩
    · rfl
    · rcases List.mem_flatMap.mp hbm with ⟨tag, htag, hbt⟩
      have htag2 : tag ∈ Node.descendants (selectMainContainer (removeNonContent root)) :=
        (List.mem_filter.mp htag).1
      have hbtag : ∀ s ∈ Node.strings tag, ∀ c ∈ s, benignChar c = true := by
        intro s hs c hc
        exact hbP s (hcont s (strings_descendants_sub _ tag htag2 s hs)) c hc
      exact handle_blocks_ok opt tag hbtag b hbt l hlb
  have hrun : noNlRun 4 (squashNlRuns 3 (joinBlocks
      ((findAllTags blockTags (selectMainContainer (removeNonContent root))).flatMap
        (handle opt)))) := squash_noNlRun 3 _
  have hlines2 : ∀ l ∈ splitNl (squashNlRuns 3 (joinBlocks
      ((findAllTags blockTags (selectMainContainer (removeNonContent root))).flatMap
        (handle opt)))), pyRStrip l = l := by
    intro l hl
    rcases mem_splitNl_squash (by omega) hl with h | rfl
    · exact hlines l h
    · rfl
  rw [extractCleanText_eq]
  have hmap : (splitNl (squashNlRuns 3 (joinBlocks
      ((findAllTags blockTags (selectMainContainer (removeNonContent root))).flatMap
        (handle opt))))).map pyRStrip =
      (splitNl (squashNlRuns 3 (joinBlocks
      ((findAllTags blockTags (selectMainContainer (removeNonContent root))).flatMap
        (handle opt))))).map (fun l => l) := List.map_congr_left hlines2
  rw [hmap, List.map_id', joinNl_splitNl]
  exact noNlRun_append_nl (by omega) (noNlRun_of_sub (pyStrip_isInfix _) hrun)
    (pyRStrip_pyStrip _)

/-- The document of the C2 counterexample: two paragraphs separated by
an `<hr>` section break. -/
def hrDoc : Node :=
  docWrap [.elem "p".data [] [.text "a".data], .elem "hr".data [] [],
    .elem "p".data [] [.text "b".data]]

/-- C2, counterexample: the claim's bound of "no 3 or more consecutive
newlines" is false for `extract_clean_text`.  An `<hr>` contributes an
empty block, the blocks are joined with `"\n\n"`, and the final
squash only caps runs at *three* newlines (`\n{4,}` → 3), so two
paragraphs around an `<hr>` produce "a\n\n\nb\n" with a run of exactly
3. -/
theorem extract_clean_text_triple_newline :
    extractCleanText defaultOptions hrDoc = "a\n\n\nb\n".data ∧
    List.replicate 3 '\n' <:+: extractCleanText defaultOptions hrDoc := by
  rw [extractCleanText_eval]
  decide

/-- C2, amended: the fallback `clean_text` does satisfy the claimed
bound (its squash caps runs at 2, so no output contains 3 consecutive
newlines), while `extract_clean_text` only guarantees the weaker bound
of its own `\n{4,}` → 3 squash — at most 3 consecutive newlines, and
that only on benign documents (exotic Unicode whitespace can survive
`strip_line(" \t")`, be erased by the final per-line `rstrip()` and
merge two newline runs into a longer one). -/
theorem cleaned_text_newline_run_bound (t : Str) (a : Bool) (opt : ExtractOptions)
    (root : Node) (hb : benignNode root = true) :
    noNlRun 3 (cleanText t a) ∧ noNlRun 4 (extractCleanText opt root) :=
  ⟨(cleanNF_cleanText t a).no_run3, extract_noNlRun opt root hb⟩

/-- Witness for C2: both bounds at concrete inputs, the benign-document
hypothesis discharged by computation. -/
theorem cleaned_text_newline_run_bound_witness :
    benignNode (docWrap [Node.elem "p".data [] [Node.text "Hello world.".data]]) = true ∧
    (noNlRun 3 (cleanText "x\n\n\n\n\ny".data true) ∧
     noNlRun 4 (extractCleanText defaultOptions
       (docWrap [Node.elem "p".data [] [Node.text "Hello world.".data]]))) :=
  ⟨by decide,
   cleaned_text_newline_run_bound "x\n\n\n\n\ny".data true defaultOptions _ (by decide)⟩

/-! ## The Wikisource crawler (§4.6)

URLs are plain strings of the shape `scheme://netloc/path?query#fragment`;
`urlparse`/`urlunparse`/`urljoin` are modelled for that shape.  Network
access (`fetch_url_bytes` + `decode_html_bytes` + parsing) is an oracle
parameter `fetch : Str → Node` mapping a URL to its parsed document. -/

/-- The remainder of `s` after the first occurrence of `pat`, `none`
when `pat` does not occur in `s`. -/
def afterFirst (pat : Str) : Str → Option Str
  | [] => if List.isPrefixOf pat [] then some [] else none
  | c :: rest =>
    if List.isPrefixOf pat (c :: rest) then some ((c :: rest).drop pat.length)
    else afterFirst pat rest

/-- `_strip_fragment`: the `urlparse`/`urlunparse` round trip with the
fragment cleared cuts the URL at its first `#`. -/
def stripFragment (url : Str) : Str := url.takeWhile (· ≠ '#')

/-- `href.split("/wiki/", 1)[-1]`: the title part of a wiki href (the
whole string when `/wiki/` does not occur). -/
def titleOf (href : Str) : Str := (afterFirst "/wiki/".data href).getD href

/-- `urlparse(url).netloc`: the text between `://` and the next `/`,
`?` or `#`. -/
def netlocOf (url : Str) : Str :=
  match afterFirst "://".data url with
  | some rest => rest.takeWhile (fun c => decide (c ≠ '/' ∧ c ≠ '?' ∧ c ≠ '#'))
  | none => []

/-- `urlparse(url).scheme`: the text before the first `:`. -/
def schemeOf (url : Str) : Str := url.takeWhile (· ≠ ':')

/-- The `f"{parsed.scheme}://{parsed.netloc}"` base root of
`extract_wikisource_chapter_links`. -/
def baseRootOf (url : Str) : Str := schemeOf url ++ "://".data ++ netlocOf url

/-- `urlparse(url).query`: the text after the first `?` and before any
`#`. -/
def queryOf (url : Str) : Str :=
  ((url.takeWhile (· ≠ '#')).dropWhile (· ≠ '?')).drop 1

/-- `_ensure_action_render`: keep the URL when `action=render` already
occurs in the query, else append it to the query (`&`-joined when a
query exists), keeping the fragment. -/
def ensureActionRender (url : Str) : Str :=
  let query := queryOf url
  if isSubstr "action=render".data query then url
  else
    let newQuery := if query = [] then "action=render".data
      else query ++ '&' :: "action=render".data
    (url.takeWhile (fun c => decide (c ≠ '?' ∧ c ≠ '#'))) ++ '?' :: newQuery ++
      url.dropWhile (· ≠ '#')

/-- `WIKISOURCE_EXCLUDED_NAMESPACES`. -/
def wikisourceExcludedNamespaces : List Str :=
  ["special".data, "help".data, "file".data, "category".data, "talk".data,
   "template".data, "portal".data]

/-- The link container of `extract_wikisource_chapter_links`:
`#mw-content-text`, else `div#content`, else the soup itself. -/
def wikiLinkContainerOf (soup : Node) : Node :=
  match (Node.descendants soup).find?
      (fun m => m.isElem && decide (m.attrOf "id".data = some "mw-content-text".data)) with
  | some t => t
  | none =>
    match (Node.descendants soup).find?
        (fun m => m.isElem && decide (m.nameOf = "div".data) &&
          decide (m.attrOf "id".data = some "content".data)) with
    | some t => t
    | none => soup

/-- One `<a href=...>` iteration of the link loop of
`extract_wikisource_chapter_links`.  The source appends to `links` and
adds to `seen` together, so `links` plays both roles.  `urljoin` of
the base root and a path-absolute href is their concatenation. -/
def wikiLinkStep (baseUrl : Str) (links : List Str) (a : Node) : List Str :=
  let href0 := pyStrip ((a.attrOf "href".data).getD [])
  if href0 = [] then links
  else
    match (if List.isPrefixOf "/wiki/".data href0 then some href0
           else if List.isPrefixOf (baseRootOf baseUrl ++ "/wiki/".data) href0 then
             some (href0.drop (baseRootOf baseUrl).length)
           else none) with
    | none => links
    | some href1 =>
      let href := stripFragment href1
      if decide (':' ∈ titleOf href) &&
          decide (lowerStr ((titleOf href).takeWhile (· ≠ ':')) ∈
            wikisourceExcludedNamespaces) then links
      else
        let absUrl := baseRootOf baseUrl ++ href
        if netlocOf absUrl ≠ netlocOf baseUrl then links
        else if absUrl ∈ links then links
        else if stripFragment absUrl = stripFragment baseUrl then links
        else links ++ [absUrl]

/-- `extract_wikisource_chapter_links` of `kdpsimplescraper.py`, on
the parsed page. -/
def extractWikisourceChapterLinks (soup : Node) (baseUrl : Str) : List Str :=
  ((Node.descendants (wikiLinkContainerOf soup)).filter
    (fun m => m.isElem && decide (m.nameOf = "a".data) && (m.attrOf "href".data).isSome)).foldl
    (wikiLinkStep baseUrl) []

/-- `WIKISOURCE_TEXT_NOISE`. -/
def wikiTextNoise : List Str :=
  ["retrieved from".data, "public domain".data, "categories".data]

/-- The class tokens of the noise selector of
`_clean_wikisource_content`. -/
def wikiNoiseClasses : List Str :=
  ["mw-editsection".data, "toc".data, "navbox".data, "vertical-navbox".data,
   "metadata".data, "sistersitebox".data, "authority-control".data,
   "mw-references-wrap".data, "reflist".data, "reference".data, "catlinks".data,
   "printfooter".data, "noprint".data, "ws-noexport".data, "hatnote".data,
   "thumb".data, "gallery".data, "ambox".data]

/-- The combined noise selector of `_clean_wikisource_content`: one of
the noise class tokens, or the ids `toc` / `catlinks`. -/
def isWikiNoise (n : Node) : Bool :=
  n.isElem && ((classesOf n).any (fun c => decide (c ∈ wikiNoiseClasses)) ||
    decide (n.attrOf "id".data = some "toc".data) ||
    decide (n.attrOf "id".data = some "catlinks".data))

/-- The content container of `_clean_wikisource_content`:
`#mw-content-text`, else `div#content`, else the first `body`, else
the soup. -/
def wikiContentOf (soup : Node) : Node :=
  match (Node.descendants soup).find?
      (fun m => m.isElem && decide (m.attrOf "id".data = some "mw-content-text".data)) with
  | some t => t
  | none =>
    match (Node.descendants soup).find?
        (fun m => m.isElem && decide (m.nameOf = "div".data) &&
          decide (m.attrOf "id".data = some "content".data)) with
    | some t => t
    | none =>
      match (Node.descendants soup).find?
          (fun m => m.isElem && decide (m.nameOf = "body".data)) with
      | some b => b
      | none => soup

/-- The `<title>`-tag fallback of `_extract_wikisource_title`
(`"Capítulo"` when everything is empty). -/
def wikiTitleFallback2 (soup : Node) : Str :=
  let t := match (Node.descendants soup).find?
      (fun m => m.isElem && decide (m.nameOf = "title".data)) with
    | some tt => getText [' '] true tt
    | none => []
  if t = [] then "Capítulo".data else t

/-- The content-heading fallback of `_extract_wikisource_title`. -/
def wikiTitleFallback (soup content : Node) : Str :=
  match (Node.descendants content).find?
      (fun m => m.isElem && decide (m.nameOf ∈
        (["h1".data, "h2".data, "h3".data, "h4".data, "h5".data, "h6".data] : List Str))) with
  | some heading =>
    if getText [] true heading = [] then wikiTitleFallback2 soup
    else getText [' '] true heading
  | none => wikiTitleFallback2 soup

/-- `_extract_wikisource_title`. -/
def extractWikisourceTitle (soup content : Node) : Str :=
  match (Node.descendants soup).find?
      (fun m => m.isElem && decide (m.nameOf = "h1".data)) with
  | some h1 =>
    if getText [] true h1 = [] then wikiTitleFallback soup content
    else getText [' '] true h1
  | none => wikiTitleFallback soup content

/-- `str.splitlines()` for newline-only text (the cleaner's output
holds no other line separator): like `split("\n")` but without the
empty final piece after a trailing newline, and `[]` on the empty
string. -/
def pySplitLines (s : Str) : List Str :=
  if s = [] then []
  else if s.getLast? = some '\n' then splitNl s.dropLast else splitNl s

/-- The per-line noise filter of `_clean_wikisource_content`. -/
def isWikiNoiseLine (line : Str) : Bool :=
  wikiTextNoise.any (fun p => isSubstr p (lowerStr (pyStrip line)))

/-- `_clean_wikisource_content` of `kdpsimplescraper.py`, on the
parsed page, returning `(title, body)`.  The source serialises the
cleaned content and re-parses it inside `extract_clean_text`; that
round trip is modelled as the identity on the tree.  The in-place
`decompose` mutates the whole document; it is modelled by removing
the noise nodes from the document for the title search as well. -/
def cleanWikisourceContent (opt : ExtractOptions) (soup : Node) : Str × Str :=
  let content := removeNodes isWikiNoise (wikiContentOf soup)
  let title := extractWikisourceTitle (removeNodes isWikiNoise soup) content
  let cleaned := extractCleanText opt content
  if cleaned = [] then (title, [])
  else
    let lines := (pySplitLines cleaned).filter (fun l => !isWikiNoiseLine l)
    let filtered := pyStrip (joinNl lines)
    (title, if filtered = [] then [] else filtered ++ ['\n'])

/-- The sub-links of a first-level link: extract the chapter links of
its rendered page, with the link itself as base. -/
def wikiSubsOf (fetch : Str → Node) (link : Str) : List Str :=
  extractWikisourceChapterLinks (fetch (ensureActionRender link)) link

/-- The chapter a URL contributes: its cleaned `(title, url, body)`,
or nothing when the body is empty. -/
def wikiChapterOf (fetch : Str → Node) (opt : ExtractOptions) (url : Str) :
    Option (Str × Str × Str) :=
  let tb := cleanWikisourceContent opt (fetch (ensureActionRender url))
  if tb.2 = [] then none else some (tb.1, url, tb.2)

/-- The inner sub-link loop body of `_collect_wikisource_chapters`:
skip visited sub-links, else mark visited, clean, and append when the
body is nonempty. -/
def collectInnerStep (fetch : Str → Node) (opt : ExtractOptions)
    (st : List (Str × Str × Str) × List Str) (sublink : Str) :
    List (Str × Str × Str) × List Str :=
  if sublink ∈ st.2 then st
  else
    let tb := cleanWikisourceContent opt (fetch (ensureActionRender sublink))
    if tb.2 = [] then (st.1, sublink :: st.2)
    else (st.1 ++ [(tb.1, sublink, tb.2)], sublink :: st.2)

/-- The outer first-level loop body of `_collect_wikisource_chapters`:
skip visited links, else mark visited, fetch the rendered page; with 4
or more qualifying sub-links recurse one level over them, else the
page itself is one chapter (when its body is nonempty). -/
def collectStep (fetch : Str → Node) (opt : ExtractOptions)
    (st : List (Str × Str × Str) × List Str) (link : Str) :
    List (Str × Str × Str) × List Str :=
  if link ∈ st.2 then st
  else
    let sublinks := wikiSubsOf fetch link
    if 4 ≤ sublinks.length then
      sublinks.foldl (collectInnerStep fetch opt) (st.1, link :: st.2)
    else
      let tb := cleanWikisourceContent opt (fetch (ensureActionRender link))
      if tb.2 = [] then (st.1, link :: st.2)
      else (st.1 ++ [(tb.1, link, tb.2)], link :: st.2)

/-- `_collect_wikisource_chapters` of `kdpsimplescraper.py`: the
chapters of the crawl (title, url, body), with the network behind the
`fetch` oracle. -/
def collectWikisourceChapters (fetch : Str → Node) (opt : ExtractOptions)
    (indexUrl : Str) : List (Str × Str × Str) :=
  let firstLevel := extractWikisourceChapterLinks (fetch indexUrl) indexUrl
  if firstLevel = [] then []
  else (firstLevel.foldl (collectStep fetch opt) ([], [])).1

/-- The expansion a first-level link contributes, per the crawl rule:
4 or more sub-links mean one chapter per sub-link, fewer mean the
link's own page as one chapter. -/
def wikiExpandOf (fetch : Str → Node) (opt : ExtractOptions) (link : Str) :
    List (Str × Str × Str) :=
  if 4 ≤ (wikiSubsOf fetch link).length then
    (wikiSubsOf fetch link).filterMap (wikiChapterOf fetch opt)
  else (wikiChapterOf fetch opt link).toList

/-- The links a first-level link touches (itself, plus its sub-links
when it expands). -/
def wikiTouchedOf (fetch : Str → Node) (link : Str) : List Str :=
  link :: (if 4 ≤ (wikiSubsOf fetch link).length then wikiSubsOf fetch link else [])

/-! ## C6: the link filter -/

theorem takeWhile_append_all {α : Type} {p : α → Bool} {l1 l2 : List α}
    (h : ∀ c ∈ l1, p c = true) :
    (l1 ++ l2).takeWhile p = l1 ++ l2.takeWhile p := by
  induction l1 with
  | nil => rfl
  | cons c l ih =>
    rw [List.cons_append, List.takeWhile_cons, if_pos (h c (by simp)),
      ih (fun d hd => h d (by simp [hd])), List.cons_append]

/-- What the link filter guarantees of every returned URL: it is not
the index page, it is same-host, and it decomposes as the base root
plus a fragment-free `/wiki/` href whose title carries no excluded
namespace prefix. -/
def goodWikiLink (baseUrl u : Str) : Prop :=
  stripFragment u ≠ stripFragment baseUrl ∧
  netlocOf u = netlocOf baseUrl ∧
  ∃ href, u = baseRootOf baseUrl ++ href ∧ List.isPrefixOf "/wiki/".data href = true ∧
    '#' ∉ href ∧
    ¬(':' ∈ titleOf href ∧
      lowerStr ((titleOf href).takeWhile (· ≠ ':')) ∈ wikisourceExcludedNamespaces)

/-- One step of the link loop preserves duplicate-freeness and link
goodness. -/
theorem wikiLinkStep_good (baseUrl : Str) {links : List Str} (a : Node)
    (h : links.Nodup ∧ ∀ u ∈ links, goodWikiLink baseUrl u) :
    (wikiLinkStep baseUrl links a).Nodup ∧
    ∀ u ∈ wikiLinkStep baseUrl links a, goodWikiLink baseUrl u := by
  simp only [wikiLinkStep]
  split
  · exact h
  · split
    · exact h
    · next href1 heq =>
      split
      · exact h
      · next hns =>
        split
        · exact h
        · next hnet =>
          split
          · exact h
          · next hmem =>
            split
            · exact h
            · next hself =>
              have hgood : goodWikiLink baseUrl
                  (baseRootOf baseUrl ++ stripFragment href1) := by
                refine ⟨hself, not_not.mp hnet, stripFragment href1, rfl, ?_, ?_, ?_⟩
                · have hpre : List.isPrefixOf "/wiki/".data href1 = true := by
                    split at heq
                    · next hp1 =>
                      cases heq
                      exact hp1
                    · next hp1 =>
                      split at heq
                      · next hp2 =>
                        cases heq
                        rw [List.isPrefixOf_iff_prefix] at hp2 ⊢
                        obtain ⟨t, ht⟩ := hp2
                        rw [← ht, List.append_assoc, List.drop_left]
                        exact ⟨t, rfl⟩
                      · exact absurd heq (by simp)
                  rw [List.isPrefixOf_iff_prefix] at hpre ⊢
                  obtain ⟨t, ht⟩ := hpre
                  rw [← ht]
                  unfold stripFragment
                  rw [takeWhile_append_all (by decide)]
                  exact ⟨t.takeWhile (· ≠ '#'), rfl⟩
                · intro hmem2
                  have := List.mem_takeWhile_imp hmem2
                  simp at this
                · intro hcon
                  apply hns
                  simp only [Bool.and_eq_true, decide_eq_true_eq]
                  exact hcon
              constructor
              · rw [List.nodup_append]
                exact ⟨h.1, List.nodup_singleton _,
                  fun x hx hy => by
                    rw [List.mem_singleton] at hy
                    exact hmem (hy ▸ hx)⟩
              · intro u hu
                rw [List.mem_append, List.mem_singleton] at hu
                rcases hu with hu | rfl
                · exact h.2 u hu
                · exact hgood

theorem foldl_wikiLinkStep_good (baseUrl : Str) (cands : List Node) :
    ∀ links : List Str, links.Nodup → (∀ u ∈ links, goodWikiLink baseUrl u) →
    (cands.foldl (wikiLinkStep baseUrl) links).Nodup ∧
    ∀ u ∈ cands.foldl (wikiLinkStep baseUrl) links, goodWikiLink baseUrl u := by
  induction cands with
  | nil => exact fun links h1 h2 => ⟨h1, h2⟩
  | cons a cands ih =>
    intro links h1 h2
    rw [List.foldl_cons]
    obtain ⟨h3, h4⟩ := wikiLinkStep_good baseUrl a ⟨h1, h2⟩
    exact ih _ h3 h4

/-- The index page of the C6 scenario: a content division with one
chapter link and one `Category:` link (whose visible anchor text is a
chapter name). -/
def catFooDoc : Node :=
  docWrap [.elem "div".data [("id".data, "mw-content-text".data)]
    [.elem "a".data [("href".data, "/wiki/Chapter_1".data)] [.text "Chapter 1".data],
     .elem "a".data [("href".data, "/wiki/Category:Foo".data)] [.text "Chapter 2".data]]]

/-- C6: the link extractor returns a duplicate-free list of URLs, each
distinct from the index page, on the same host, and of the form
base-root plus a fragment-free `/wiki/` href whose title has no
excluded namespace prefix (`special`, `help`, `file`, `category`,
`talk`, `template`, `portal`); concretely, an index linking
`/wiki/Chapter_1` and `/wiki/Category:Foo` yields only the chapter
link, whatever the anchor text of the category link. -/
theorem wikisource_links_filtered (soup : Node) (baseUrl : Str) :
    (extractWikisourceChapterLinks soup baseUrl).Nodup ∧
    (∀ u ∈ extractWikisourceChapterLinks soup baseUrl, goodWikiLink baseUrl u) ∧
    extractWikisourceChapterLinks catFooDoc
        "https://en.wikisource.org/wiki/Index".data =
      ["https://en.wikisource.org/wiki/Chapter_1".data] := by
  obtain ⟨h1, h2⟩ := foldl_wikiLinkStep_good baseUrl
    ((Node.descendants (wikiLinkContainerOf soup)).filter
      (fun m => m.isElem && decide (m.nameOf = "a".data) && (m.attrOf "href".data).isSome))
    [] (List.nodup_nil) (by simp)
  exact ⟨h1, h2, by decide⟩

/-! ## C5: the crawl expansion -/

/-- The inner sub-link fold, on fresh duplicate-free sub-links:
chapters with nonempty bodies are appended in order, and every
sub-link is marked visited. -/
theorem foldl_collectInnerStep (fetch : Str → Node) (opt : ExtractOptions) :
    ∀ (S : List Str) (cs : List (Str × Str × Str)) (seen : List Str),
      S.Nodup → (∀ u ∈ S, u ∉ seen) →
      S.foldl (collectInnerStep fetch opt) (cs, seen) =
        (cs ++ S.filterMap (wikiChapterOf fetch opt), S.reverse ++ seen) := by
  intro S
  induction S with
  | nil =>
    intro cs seen _ _
    simp
  | cons x S ih =>
    intro cs seen hnd hfresh
    rw [List.foldl_cons]
    have hx : x ∉ seen := hfresh x (by simp)
    have hstep : collectInnerStep fetch opt (cs, seen) x =
        (cs ++ (wikiChapterOf fetch opt x).toList, x :: seen) := by
      simp only [collectInnerStep, wikiChapterOf]
      rw [if_neg hx]
      by_cases hb : (cleanWikisourceContent opt (fetch (ensureActionRender x))).2 = []
      · rw [if_pos hb, if_pos hb]
        simp
      · rw [if_neg hb, if_neg hb]
        simp
    have hfresh2 : ∀ u ∈ S, u ∉ x :: seen := by
      intro u hu
      rw [List.mem_cons, not_or]
      exact ⟨fun he => (List.nodup_cons.mp hnd).1 (he ▸ hu),
        hfresh u (List.mem_cons_of_mem _ hu)⟩
    rw [hstep, ih _ _ (List.Nodup.of_cons hnd) hfresh2]
    cases hc : wikiChapterOf fetch opt x with
    | none => simp [List.filterMap_cons, hc]
    | some ch => simp [List.filterMap_cons, hc]

/-- The first-level fold: when every touched link is touched once and
none was visited before, each first-level link contributes exactly its
expansion, in order. -/
theorem foldl_collectStep (fetch : Str → Node) (opt : ExtractOptions) :
    ∀ (R : List Str) (cs : List (Str × Str × Str)) (seen : List Str),
      (R.flatMap (wikiTouchedOf fetch)).Nodup →
      (∀ u ∈ R.flatMap (wikiTouchedOf fetch), u ∉ seen) →
      (R.foldl (collectStep fetch opt) (cs, seen)).1 =
        cs ++ R.flatMap (wikiExpandOf fetch opt) := by
  intro R
  induction R with
  | nil =>
    intro cs seen _ _
    simp
  | cons l R ih =>
    intro cs seen hnd hfresh
    rw [List.flatMap_cons, List.nodup_append] at hnd
    obtain ⟨hnd1, hnd2, hdisj⟩ := hnd
    have hfA : ∀ u ∈ wikiTouchedOf fetch l, u ∉ seen := by
      intro u hu
      exact hfresh u (by rw [List.flatMap_cons, List.mem_append]; exact Or.inl hu)
    have hfB : ∀ u ∈ R.flatMap (wikiTouchedOf fetch), u ∉ seen := by
      intro u hu
      exact hfresh u (by rw [List.flatMap_cons, List.mem_append]; exact Or.inr hu)
    have hl : l ∉ seen := hfA l (by simp [wikiTouchedOf])
    rw [List.foldl_cons]
    by_cases h4 : 4 ≤ (wikiSubsOf fetch l).length
    · have htl : wikiTouchedOf fetch l = l :: wikiSubsOf fetch l := by
        unfold wikiTouchedOf
        rw [if_pos h4]
      rw [htl] at hnd1 hfA hdisj
      have hstep : collectStep fetch opt (cs, seen) l =
          (wikiSubsOf fetch l).foldl (collectInnerStep fetch opt) (cs, l :: seen) := by
        simp only [collectStep]
        rw [if_neg hl, if_pos h4]
      have hfS : ∀ u ∈ wikiSubsOf fetch l, u ∉ l :: seen := by
        intro u hu
        rw [List.mem_cons, not_or]
        exact ⟨fun he => (List.nodup_cons.mp hnd1).1 (he ▸ hu),
          hfA u (List.mem_cons_of_mem _ hu)⟩
      rw [hstep, foldl_collectInnerStep fetch opt _ _ _ (List.Nodup.of_cons hnd1) hfS]
      have hfR : ∀ u ∈ R.flatMap (wikiTouchedOf fetch),
          u ∉ (wikiSubsOf fetch l).reverse ++ l :: seen := by
        intro u hu
        rw [List.mem_append, List.mem_reverse, List.mem_cons]
        intro hc
        rcases hc with hc | hc | hc
        · exact hdisj (List.mem_cons_of_mem _ hc) hu
        · exact hdisj (hc ▸ List.mem_cons_self _ _) hu
        · exact hfB u hu hc
      rw [ih _ _ hnd2 hfR]
      rw [List.flatMap_cons]
      have hexp : wikiExpandOf fetch opt l =
          (wikiSubsOf fetch l).filterMap (wikiChapterOf fetch opt) := by
        unfold wikiExpandOf
        rw [if_pos h4]
      rw [hexp, List.append_assoc]
    · have htl : wikiTouchedOf fetch l = [l] := by
        unfold wikiTouchedOf
        rw [if_neg h4]
      rw [htl] at hfA hdisj
      have hstep : collectStep fetch opt (cs, seen) l =
          (cs ++ (wikiChapterOf fetch opt l).toList, l :: seen) := by
        simp only [collectStep, wikiChapterOf]
        rw [if_neg hl, if_neg h4]
        by_cases hb : (cleanWikisourceContent opt (fetch (ensureActionRender l))).2 = []
        · rw [if_pos hb, if_pos hb]
          simp
        · rw [if_neg hb, if_neg hb]
          simp
      have hfR : ∀ u ∈ R.flatMap (wikiTouchedOf fetch), u ∉ l :: seen := by
        intro u hu
        rw [List.mem_cons, not_or]
        exact ⟨fun he => hdisj (by simp [he]) hu, hfB u hu⟩
      rw [hstep, ih _ _ hnd2 hfR]
      rw [List.flatMap_cons]
      have hexp : wikiExpandOf fetch opt l = (wikiChapterOf fetch opt l).toList := by
        unfold wikiExpandOf
        rw [if_neg h4]
      rw [hexp, List.append_assoc]

/-- C5: when no URL is reachable twice in the crawl (every first-level
link and every sub-link of an expanded volume is touched exactly
once), the chapter list is exactly the concatenation, in first-level
order, of each link's expansion: one chapter per nonempty-bodied
sub-link when the link yields 4 or more qualifying sub-links, else the
link's own page as a single chapter, with recursion going exactly one
level deep. -/
theorem wikisource_crawl_expansion (fetch : Str → Node) (opt : ExtractOptions)
    (indexUrl : Str)
    (hnd : ((extractWikisourceChapterLinks (fetch indexUrl) indexUrl).flatMap
      (wikiTouchedOf fetch)).Nodup) :
    collectWikisourceChapters fetch opt indexUrl =
      (extractWikisourceChapterLinks (fetch indexUrl) indexUrl).flatMap
        (wikiExpandOf fetch opt) := by
  simp only [collectWikisourceChapters]
  by_cases h0 : extractWikisourceChapterLinks (fetch indexUrl) indexUrl = []
  · rw [if_pos h0, h0]
    rfl
  · rw [if_neg h0, foldl_collectStep fetch opt _ [] [] hnd (by simp)]
    rfl

/-- `_clean_wikisource_content` through the structural twins. -/
def cleanWikisourceContentE (opt : ExtractOptions) (soup : Node) : Str × Str :=
  let content := removeNodes isWikiNoise (wikiContentOf soup)
  let title := extractWikisourceTitle (removeNodes isWikiNoise soup) content
  let cleaned := extractCleanTextE opt content
  if cleaned = [] then (title, [])
  else
    let lines := (pySplitLines cleaned).filter (fun l => !isWikiNoiseLine l)
    let filtered := pyStrip (joinNl lines)
    (title, if filtered = [] then [] else filtered ++ ['\n'])

theorem cleanWikisourceContent_eval (opt : ExtractOptions) (soup : Node) :
    cleanWikisourceContent opt soup = cleanWikisourceContentE opt soup := by
  simp only [cleanWikisourceContent, cleanWikisourceContentE, extractCleanText_eval]

/-- The inner loop body through the structural twins. -/
def collectInnerStepE (fetch : Str → Node) (opt : ExtractOptions)
    (st : List (Str × Str × Str) × List Str) (sublink : Str) :
    List (Str × Str × Str) × List Str :=
  if sublink ∈ st.2 then st
  else
    let tb := cleanWikisourceContentE opt (fetch (ensureActionRender sublink))
    if tb.2 = [] then (st.1, sublink :: st.2)
    else (st.1 ++ [(tb.1, sublink, tb.2)], sublink :: st.2)

theorem collectInnerStep_eval (fetch : Str → Node) (opt : ExtractOptions) :
    collectInnerStep fetch opt = collectInnerStepE fetch opt := by
  funext st sublink
  simp only [collectInnerStep, collectInnerStepE, cleanWikisourceContent_eval]

/-- The outer loop body through the structural twins. -/
def collectStepE (fetch : Str → Node) (opt : ExtractOptions)
    (st : List (Str × Str × Str) × List Str) (link : Str) :
    List (Str × Str × Str) × List Str :=
  if link ∈ st.2 then st
  else
    let sublinks := wikiSubsOf fetch link
    if 4 ≤ sublinks.length then
      sublinks.foldl (collectInnerStepE fetch opt) (st.1, link :: st.2)
    else
      let tb := cleanWikisourceContentE opt (fetch (ensureActionRender link))
      if tb.2 = [] then (st.1, link :: st.2)
      else (st.1 ++ [(tb.1, link, tb.2)], link :: st.2)

theorem collectStep_eval (fetch : Str → Node) (opt : ExtractOptions) :
    collectStep fetch opt = collectStepE fetch opt := by
  funext st link
  simp only [collectStep, collectStepE, cleanWikisourceContent_eval, collectInnerStep_eval]

/-- The crawl through the structural twins. -/
def collectWikisourceChaptersE (fetch : Str → Node) (opt : ExtractOptions)
    (indexUrl : Str) : List (Str × Str × Str) :=
  let firstLevel := extractWikisourceChapterLinks (fetch indexUrl) indexUrl
  if firstLevel = [] then []
  else (firstLevel.foldl (collectStepE fetch opt) ([], [])).1

theorem collectWikisourceChapters_eval (fetch : Str → Node) (opt : ExtractOptions)
    (indexUrl : Str) :
    collectWikisourceChapters fetch opt indexUrl =
      collectWikisourceChaptersE fetch opt indexUrl := by
  simp only [collectWikisourceChapters, collectWikisourceChaptersE, collectStep_eval]

/-- The index URL of the C5 scenario. -/
def wsIdxUrl : Str := "https://en.wikisource.org/wiki/MyBook".data

/-- A same-host wiki URL of the C5 scenario. -/
def wsUrl (p : Str) : Str := "https://en.wikisource.org/wiki/".data ++ p

/-- A Wikisource-shaped page: a `#mw-content-text` division. -/
def wsContentDoc (body : List Node) : Node :=
  docWrap [.elem "div".data [("id".data, "mw-content-text".data)] body]

/-- A wiki article link. -/
def wsLink (p : Str) : Node :=
  .elem "a".data [("href".data, "/wiki/".data ++ p)] [.text p]

/-- A body paragraph. -/
def wsPara (t : Str) : Node := .elem "p".data [] [.text t]

/-- The fetch oracle of the C5 scenario: an index linking `Volume_1`
(which links 6 chapter pages) and `Volume_2` (which links only 1 page
and carries its own body text). -/
def wikiFetchDemo (url : Str) : Node :=
  if url = wsIdxUrl then wsContentDoc [wsLink "Volume_1".data, wsLink "Volume_2".data]
  else if url = wsUrl "Volume_1?action=render".data then
    wsContentDoc [wsLink "Chapter_1".data, wsLink "Chapter_2".data, wsLink "Chapter_3".data,
      wsLink "Chapter_4".data, wsLink "Chapter_5".data, wsLink "Chapter_6".data]
  else if url = wsUrl "Volume_2?action=render".data then
    wsContentDoc [wsLink "Extra_Notes".data, wsPara "Volume two body text.".data]
  else if url = wsUrl "Chapter_1?action=render".data then
    wsContentDoc [wsPara "Text one.".data]
  else if url = wsUrl "Chapter_2?action=render".data then
    wsContentDoc [wsPara "Text two.".data]
  else if url = wsUrl "Chapter_3?action=render".data then
    wsContentDoc [wsPara "Text three.".data]
  else if url = wsUrl "Chapter_4?action=render".data then
    wsContentDoc [wsPara "Text four.".data]
  else if url = wsUrl "Chapter_5?action=render".data then
    wsContentDoc [wsPara "Text five.".data]
  else if url = wsUrl "Chapter_6?action=render".data then
    wsContentDoc [wsPara "Text six.".data]
  else docWrap []

/-- Witness for C5: the scenario oracle satisfies the
touched-once hypothesis, the crawl equals the expansion formula, and
concretely yields 7 chapters — `Volume_1`'s six before `Volume_2`'s
one, in order. -/
theorem wikisource_crawl_expansion_witness :
    ((extractWikisourceChapterLinks (wikiFetchDemo wsIdxUrl) wsIdxUrl).flatMap
      (wikiTouchedOf wikiFetchDemo)).Nodup ∧
    collectWikisourceChapters wikiFetchDemo defaultOptions wsIdxUrl =
      (extractWikisourceChapterLinks (wikiFetchDemo wsIdxUrl) wsIdxUrl).flatMap
        (wikiExpandOf wikiFetchDemo defaultOptions) ∧
    (collectWikisourceChapters wikiFetchDemo defaultOptions wsIdxUrl).map
        (fun c => c.2.1) =
      [wsUrl "Chapter_1".data, wsUrl "Chapter_2".data, wsUrl "Chapter_3".data,
       wsUrl "Chapter_4".data, wsUrl "Chapter_5".data, wsUrl "Chapter_6".data,
       wsUrl "Volume_2".data] := by
  refine ⟨by decide, wikisource_crawl_expansion wikiFetchDemo defaultOptions wsIdxUrl
    (by decide), ?_⟩
  rw [collectWikisourceChapters_eval]
  decide

end Books
